import Mathlib

/-!
# MiddlewareManager (native/cocos/editor-support/MiddlewareManager.cpp)

A shallow embedding of the per-frame middleware manager: the deferred
add/remove protocol (`addTimer`, `removeTimer`, `updateOperateCache`), the
per-format `MeshBuffer` table (`getMeshBuffer` and the read accessors) and the
two frame phases (`update`, `render`), the latter two as functions that return
the new manager state together with the trace of calls they make on their
collaborators.

Pointers are addresses (`Nat`), `0` is `nullptr`.  The two associative
containers `_operateCacheMap` and `_mbMap` are declared in `MiddlewareManager.h`,
which is not among the sources: a container is kept as a list of entries with
C++ `operator[]` semantics, and the order in which a range-`for` walks it is a
parameter (`Env.iterCache`, `Env.iterMb`).  `MeshBuffer`, `SharedBufferManager`,
`IMiddleware` and `Batcher2d` are collaborators whose code is not among the
sources either: what they return is a parameter of `Env`, what is called on
them is recorded in the trace.
-/

namespace Middleware

/-- An `IMiddleware *`: the address of a participant. -/
abbrev IMiddlewarePtr := Nat

/-- A `MeshBuffer *`: `0` is `nullptr`. -/
abbrev MeshBufferPtr := Nat

/-- An `se_object_ptr`: `0` is `nullptr`. -/
abbrev SeObjectPtr := Nat

/-- Lookup of a key in a container, the first entry with that key. -/
def mapFind {K V : Type} [DecidableEq K] : List (K × V) → K → Option V
  | [], _ => none
  | (k', v) :: rest, k => if k' = k then some v else mapFind rest k

/-- The assignment `m[k] = v`: the entry of `k` is overwritten where it stands, a new
entry is created when `k` has none. -/
def mapAssign {K V : Type} [DecidableEq K] : List (K × V) → K → V → List (K × V)
  | [], k, v => [(k, v)]
  | (k', v') :: rest, k, v =>
    if k' = k then (k, v) :: rest else (k', v') :: mapAssign rest k v

/-- The read `m[k]`: the value of `k` and the container afterwards; when `k` has no entry
`operator[]` creates one holding the value-initialised `dflt`. -/
def mapIndex {K V : Type} [DecidableEq K] (m : List (K × V)) (k : K) (dflt : V) :
    V × List (K × V) :=
  match mapFind m k with
  | some v => (v, m)
  | none => (dflt, mapAssign m k dflt)

/-- The keys of a container. -/
def mapKeys {K V : Type} (m : List (K × V)) : List K := m.map Prod.fst

/-- The state of a `MiddlewareManager`: `_updateList`, `_operateCacheMap`, `_mbMap`, and
the `MeshBuffer` objects constructed so far (`heap` lists the format each was
constructed with; the k-th object, counting from one, lives at address k). -/
structure MiddlewareManager where
  updateList : List IMiddlewarePtr
  operateCacheMap : List (IMiddlewarePtr × Bool)
  mbMap : List (Int × MeshBufferPtr)
  heap : List Int
  deriving DecidableEq, Repr

/-- The manager as its constructor leaves it. -/
def MiddlewareManager.fresh : MiddlewareManager :=
  { updateList := [], operateCacheMap := [], mbMap := [], heap := [] }

/-- A call a participant makes on the manager from inside its `update` or `render`. -/
inductive Call where
  | addTimer (editor : IMiddlewarePtr)
  | removeTimer (editor : IMiddlewarePtr)
  | getMeshBuffer (format : Int)
  | getVBTypedArray (format : Int) (bufferPos : Int)
  | getIBTypedArray (format : Int) (bufferPos : Int)
  | getVBTypedArrayLength (format : Int) (bufferPos : Nat)
  | getIBTypedArrayLength (format : Int) (bufferPos : Nat)
  | getBufferCount (format : Int)
  deriving DecidableEq, Repr

/-- A call the manager makes on a collaborator during `update` or `render`.  `dt` is the
bit pattern of the `float` that is passed through; the batcher call is tagged with the
key of the `_mbMap` entry it is made for and the buffer whose sub-buffers it forwards. -/
inductive Event where
  | attachInfoReset
  | attachWriteUint32 (value : Nat)
  | editorUpdate (editor : IMiddlewarePtr) (dt : Nat)
  | editorRender (editor : IMiddlewarePtr) (dt : Nat)
  | mbReset (mb : MeshBufferPtr)
  | uploadIB (mb : MeshBufferPtr)
  | uploadVB (mb : MeshBufferPtr)
  | syncMeshBuffersToNative (format : Int) (accID : Nat) (mb : MeshBufferPtr)
  deriving DecidableEq, Repr

/-- What the sources leave open: the iteration order of the two containers, the constant
`VF_XYZUVCC`, whether `_attachInfo.getBuffer()` is non-null, what the `MeshBuffer`
accessors return, and the calls each participant makes on the manager from its `update`
and `render`. -/
structure Env where
  iterCache : List (IMiddlewarePtr × Bool) → List (IMiddlewarePtr × Bool)
  iterMb : List (Int × MeshBufferPtr) → List (Int × MeshBufferPtr)
  VF_XYZUVCC : Int
  attachBuffer : Bool
  mbGetVBTypedArray : MeshBufferPtr → Int → SeObjectPtr
  mbGetIBTypedArray : MeshBufferPtr → Int → SeObjectPtr
  mbGetVBTypedArrayLength : MeshBufferPtr → Nat → Nat
  mbGetIBTypedArrayLength : MeshBufferPtr → Nat → Nat
  mbGetBufferCount : MeshBufferPtr → Nat
  editorUpdate : IMiddlewarePtr → MiddlewareManager → List Call
  editorRender : IMiddlewarePtr → MiddlewareManager → List Call

/-- `MiddlewareManager::getMeshBuffer`. -/
def getMeshBuffer (s : MiddlewareManager) (format : Int) : MeshBufferPtr × MiddlewareManager :=
  let r := mapIndex s.mbMap format 0
  if r.1 = 0 then
    (s.heap.length + 1,
      { s with mbMap := mapAssign r.2 format (s.heap.length + 1), heap := s.heap ++ [format] })
  else
    (r.1, { s with mbMap := r.2 })

/-- `MiddlewareManager::addTimer`. -/
def addTimer (s : MiddlewareManager) (editor : IMiddlewarePtr) : MiddlewareManager :=
  { s with operateCacheMap := mapAssign s.operateCacheMap editor true }

/-- `MiddlewareManager::removeTimer`. -/
def removeTimer (s : MiddlewareManager) (editor : IMiddlewarePtr) : MiddlewareManager :=
  { s with operateCacheMap := mapAssign s.operateCacheMap editor false }

/-- One round of the loop of `updateOperateCache`. -/
def flushEntry (l : List IMiddlewarePtr) (iter : IMiddlewarePtr × Bool) : List IMiddlewarePtr :=
  if iter.2 then
    if iter.1 ∈ l then l else l ++ [iter.1]
  else if iter.1 ∈ l then l.erase iter.1
  else l

/-- `MiddlewareManager::updateOperateCache`. -/
def updateOperateCache (env : Env) (s : MiddlewareManager) : MiddlewareManager :=
  { s with
    updateList := (env.iterCache s.operateCacheMap).foldl flushEntry s.updateList,
    operateCacheMap := [] }

/-- `MiddlewareManager::getVBTypedArray`. -/
def getVBTypedArray (env : Env) (s : MiddlewareManager) (format : Int) (bufferPos : Int) :
    SeObjectPtr × MiddlewareManager :=
  let r := mapIndex s.mbMap format 0
  if r.1 = 0 then (0, { s with mbMap := r.2 })
  else (env.mbGetVBTypedArray r.1 bufferPos, { s with mbMap := r.2 })

/-- `MiddlewareManager::getIBTypedArray`. -/
def getIBTypedArray (env : Env) (s : MiddlewareManager) (format : Int) (bufferPos : Int) :
    SeObjectPtr × MiddlewareManager :=
  let r := mapIndex s.mbMap format 0
  if r.1 = 0 then (0, { s with mbMap := r.2 })
  else (env.mbGetIBTypedArray r.1 bufferPos, { s with mbMap := r.2 })

/-- `MiddlewareManager::getVBTypedArrayLength`. -/
def getVBTypedArrayLength (env : Env) (s : MiddlewareManager) (format : Int) (bufferPos : Nat) :
    Nat × MiddlewareManager :=
  let r := mapIndex s.mbMap format 0
  if r.1 = 0 then (0, { s with mbMap := r.2 })
  else (env.mbGetVBTypedArrayLength r.1 bufferPos, { s with mbMap := r.2 })

/-- `MiddlewareManager::getIBTypedArrayLength`. -/
def getIBTypedArrayLength (env : Env) (s : MiddlewareManager) (format : Int) (bufferPos : Nat) :
    Nat × MiddlewareManager :=
  let r := mapIndex s.mbMap format 0
  if r.1 = 0 then (0, { s with mbMap := r.2 })
  else (env.mbGetIBTypedArrayLength r.1 bufferPos, { s with mbMap := r.2 })

/-- `MiddlewareManager::getBufferCount`. -/
def getBufferCount (env : Env) (s : MiddlewareManager) (format : Int) : Nat × MiddlewareManager :=
  let r := getMeshBuffer s format
  if r.1 = 0 then (0, r.2)
  else (env.mbGetBufferCount r.1, r.2)

/-- The effect on the manager of one call made by a participant. -/
def applyCall (env : Env) (s : MiddlewareManager) : Call → MiddlewareManager
  | .addTimer editor => addTimer s editor
  | .removeTimer editor => removeTimer s editor
  | .getMeshBuffer format => (getMeshBuffer s format).2
  | .getVBTypedArray format bufferPos => (getVBTypedArray env s format bufferPos).2
  | .getIBTypedArray format bufferPos => (getIBTypedArray env s format bufferPos).2
  | .getVBTypedArrayLength format bufferPos => (getVBTypedArrayLength env s format bufferPos).2
  | .getIBTypedArrayLength format bufferPos => (getIBTypedArrayLength env s format bufferPos).2
  | .getBufferCount format => (getBufferCount env s format).2

/-- What a frame phase leaves behind: the manager and the calls made on collaborators. -/
structure Frame where
  state : MiddlewareManager
  trace : List Event
  deriving DecidableEq, Repr

/-- The loop of `update` over `_updateList`: each participant's `update(dt)` is called and
the calls it makes on the manager take effect.  None of those calls touches
`_updateList`, so `_updateList[i]` reads the list as it was on entry. -/
def updatePass (env : Env) (dt : Nat) : List IMiddlewarePtr → MiddlewareManager → Frame
  | [], s => { state := s, trace := [] }
  | editor :: rest, s =>
    let r := updatePass env dt rest ((env.editorUpdate editor s).foldl (applyCall env) s)
    { state := r.state, trace := Event.editorUpdate editor dt :: r.trace }

/-- One round of the loop that closes `update`. -/
def postEntry (l : List IMiddlewarePtr) (iter : IMiddlewarePtr × Bool) : List IMiddlewarePtr :=
  if !iter.2 && decide (iter.1 ∈ l) then l.erase iter.1 else l

/-- `MiddlewareManager::update`. -/
def update (env : Env) (s : MiddlewareManager) (dt : Nat) : Frame :=
  let s1 := updateOperateCache env s
  let r := updatePass env dt s1.updateList s1
  { state :=
      { r.state with
        updateList := (env.iterCache r.state.operateCacheMap).foldl postEntry r.state.updateList },
    trace :=
      Event.attachInfoReset ::
        (if env.attachBuffer then [Event.attachWriteUint32 0] else []) ++ r.trace }

/-- The first loop of `render`: every non-null buffer of `_mbMap` is reset. -/
def resetPass : List (Int × MeshBufferPtr) → List Event
  | [] => []
  | it :: rest => (if it.2 ≠ 0 then [Event.mbReset it.2] else []) ++ resetPass rest

/-- The loop of `render` over `_updateList`. -/
def renderPass (env : Env) (dt : Nat) : List IMiddlewarePtr → MiddlewareManager → Frame
  | [], s => { state := s, trace := [] }
  | editor :: rest, s =>
    let r := renderPass env dt rest ((env.editorRender editor s).foldl (applyCall env) s)
    { state := r.state, trace := Event.editorRender editor dt :: r.trace }

/-- The last loop of `render`: upload and hand-over per entry of `_mbMap`.  The flag is
`false` when the walk stops at `buffer->uiMeshBuffers()` called on a null `buffer`. -/
def uploadPass (env : Env) : List (Int × MeshBufferPtr) → List Event × Bool
  | [] => ([], true)
  | it :: rest =>
    if it.2 ≠ 0 then
      let r := uploadPass env rest
      (Event.uploadIB it.2 :: Event.uploadVB it.2 ::
        Event.syncMeshBuffersToNative it.1 (if it.1 = env.VF_XYZUVCC then 65535 else 65534) it.2 ::
        r.1, r.2)
    else ([], false)

/-- What `render` leaves behind: the calls made on collaborators and, unless the call
ended in a null dereference, the manager. -/
structure RenderOutcome where
  trace : List Event
  state : Option MiddlewareManager
  deriving DecidableEq, Repr

/-- `MiddlewareManager::render`. -/
def render (env : Env) (s : MiddlewareManager) (dt : Nat) : RenderOutcome :=
  let r := renderPass env dt s.updateList s
  let u := uploadPass env (env.iterMb r.state.mbMap)
  { trace := resetPass (env.iterMb s.mbMap) ++ r.trace ++ u.1,
    state := if u.2 then some r.state else none }

/-- A registration request made on the manager: `addTimer(editor)` or
`removeTimer(editor)`. -/
inductive TimerCall where
  | addTimer (editor : IMiddlewarePtr)
  | removeTimer (editor : IMiddlewarePtr)
  deriving DecidableEq, Repr

/-- The participant a request is about. -/
def TimerCall.editor : TimerCall → IMiddlewarePtr
  | .addTimer editor => editor
  | .removeTimer editor => editor

/-- The state a request asks for: `true` for `addTimer`, `false` for `removeTimer`. -/
def TimerCall.wantActive : TimerCall → Bool
  | .addTimer _ => true
  | .removeTimer _ => false

/-- The manager after one request. -/
def TimerCall.run (s : MiddlewareManager) : TimerCall → MiddlewareManager
  | .addTimer editor => Middleware.addTimer s editor
  | .removeTimer editor => Middleware.removeTimer s editor

/-- The manager after a sequence of requests, first to last. -/
def runTimerCalls (s : MiddlewareManager) (calls : List TimerCall) : MiddlewareManager :=
  calls.foldl TimerCall.run s

/-- The last request of a sequence that is about participant `p`, if there is one. -/
def lastCallFor (p : IMiddlewarePtr) (calls : List TimerCall) : Option TimerCall :=
  (calls.filter (fun c => c.editor = p)).getLast?

/-- The iteration order of a `std::map`: ascending keys. -/
def stdMapOrder {K V : Type} [LinearOrder K] (m : List (K × V)) : List (K × V) :=
  m.insertionSort (fun a b => a.1 ≤ b.1)

/-- A sample environment: both containers are walked in ascending key order, the
`MeshBuffer` accessors return fixed values and the participants call nothing back. -/
def sampleEnv : Env :=
  { iterCache := stdMapOrder, iterMb := stdMapOrder, VF_XYZUVCC := 7, attachBuffer := true,
    mbGetVBTypedArray := fun mb _ => mb, mbGetIBTypedArray := fun mb _ => mb,
    mbGetVBTypedArrayLength := fun _ _ => 4, mbGetIBTypedArrayLength := fun _ _ => 6,
    mbGetBufferCount := fun _ => 1,
    editorUpdate := fun _ _ => [], editorRender := fun _ _ => [] }

/-- A sample manager: participants 1 and 2 are active, nothing is pending, no buffer
exists. -/
def sampleManager : MiddlewareManager :=
  { updateList := [1, 2], operateCacheMap := [], mbMap := [], heap := [] }

/-- A sample burst of requests: the last one about participant 1 is a removal, the last
one about participant 3 an addition. -/
def sampleCalls : List TimerCall :=
  [.addTimer 3, .removeTimer 1, .addTimer 1, .removeTimer 3, .removeTimer 1, .addTimer 3]

/-- A burst in which `p` is added and then removed: `addTimer(p)`, the requests
`between`, `removeTimer(p)`, the requests `later`. -/
def addThenRemove (p : IMiddlewarePtr) (between later : List TimerCall) : List TimerCall :=
  TimerCall.addTimer p :: between ++ TimerCall.removeTimer p :: later

/-- The `update(dt)` calls a trace makes on participants, in order. -/
def updateCalls (trace : List Event) : List (IMiddlewarePtr × Nat) :=
  trace.filterMap (fun ev =>
    match ev with
    | .editorUpdate editor dt => some (editor, dt)
    | _ => none)

/-- The `render(dt)` calls a trace makes on participants, in order. -/
def renderCalls (trace : List Event) : List (IMiddlewarePtr × Nat) :=
  trace.filterMap (fun ev =>
    match ev with
    | .editorRender editor dt => some (editor, dt)
    | _ => none)

/-- In `trace`, call `x` is made and call `y` is made later. -/
def callsBefore (x y : Event) (trace : List Event) : Prop :=
  [x, y].Sublist trace

instance (x y : Event) (trace : List Event) : Decidable (callsBefore x y trace) :=
  inferInstanceAs (Decidable ([x, y].Sublist trace))

/-- The buffer `_mbMap` holds for `format`: `0` when the format has no entry or a null
one, so `meshBufferOf s format = 0` says that no `MeshBuffer` exists for `format`. -/
def meshBufferOf (s : MiddlewareManager) (format : Int) : MeshBufferPtr :=
  (mapFind s.mbMap format).getD 0

/-- The format map is well formed against the heap: one entry per format, every buffer
in it is null or an object constructed so far, and no buffer is held by two formats.
`new` returns an address no live object has, which this invariant records. -/
def mbWF (s : MiddlewareManager) : Prop :=
  (mapKeys s.mbMap).Nodup ∧
  (∀ it ∈ s.mbMap, it.2 ≤ s.heap.length) ∧
  (∀ it ∈ s.mbMap, ∀ it2 ∈ s.mbMap, it.2 ≠ 0 → it.2 = it2.2 → it.1 = it2.1)

instance (s : MiddlewareManager) : Decidable (mbWF s) :=
  inferInstanceAs (Decidable (_ ∧ _ ∧ _))

/-- A sample manager holding one buffer, for format 7. -/
def bufferedManager : MiddlewareManager := (getMeshBuffer MiddlewareManager.fresh 7).2

/-- A manager reached through the public interface alone: `getMeshBuffer(1)` on a fresh
manager, then the query `getVBTypedArray(0, 0)` for a format that has no buffer. -/
def nullEntryManager : MiddlewareManager :=
  (getVBTypedArray sampleEnv (getMeshBuffer MiddlewareManager.fresh 1).2 0 0).2

/-- A sample manager holding two buffers, for formats 7 and 1. -/
def twoBufferManager : MiddlewareManager := (getMeshBuffer bufferedManager 1).2

/-- What `mbWF` says of the entries of the format map alone, in whatever order they are
walked: one entry per format, no non-null buffer under two formats. -/
def entriesWF (es : List (Int × MeshBufferPtr)) : Prop :=
  (mapKeys es).Nodup ∧ ∀ it ∈ es, ∀ it2 ∈ es, it.2 ≠ 0 → it.2 = it2.2 → it.1 = it2.1

/-- The states a manager can be in: the freshly constructed one, and what a public
operation (a `Call`, `update`, a `render` that returns) makes of such a state, whatever
the participants call back and whatever order the containers are walked in. -/
inductive Reachable : MiddlewareManager → Prop where
  | fresh : Reachable MiddlewareManager.fresh
  | call (env : Env) (s : MiddlewareManager) (c : Call) :
      Reachable s → Reachable (applyCall env s c)
  | update (env : Env) (s : MiddlewareManager) (dt : Nat) :
      Reachable s → Reachable (update env s dt).state
  | render (env : Env) (s s2 : MiddlewareManager) (dt : Nat) :
      Reachable s → (render env s dt).state = some s2 → Reachable s2

/-- The pending map holds one entry per participant. -/
def cacheWF (s : MiddlewareManager) : Prop := (mapKeys s.operateCacheMap).Nodup

/-- The calls the participants make on the manager during the loop of `update` over
`_updateList`, in the order they are made. -/
def updatePassCalls (env : Env) : List IMiddlewarePtr → MiddlewareManager → List Call
  | [], _ => []
  | editor :: rest, s =>
    env.editorUpdate editor s ++
      updatePassCalls env rest ((env.editorUpdate editor s).foldl (applyCall env) s)

/-- The calls the participants make on the manager during the loop of `render` over
`_updateList`, in the order they are made. -/
def renderPassCalls (env : Env) : List IMiddlewarePtr → MiddlewareManager → List Call
  | [], _ => []
  | editor :: rest, s =>
    env.editorRender editor s ++
      renderPassCalls env rest ((env.editorRender editor s).foldl (applyCall env) s)

/-- The registration request a call is, if it is one. -/
def Call.timer : Call → Option TimerCall
  | .addTimer editor => some (TimerCall.addTimer editor)
  | .removeTimer editor => some (TimerCall.removeTimer editor)
  | _ => none

/-- The registration requests among a sequence of calls, in order. -/
def timerCalls (calls : List Call) : List TimerCall := calls.filterMap Call.timer

/-- The registration requests issued during the update pass of `update` on `s`: those
the participants make from their `update(dt)`, after the flush that opens `update`. -/
def updateRequests (env : Env) (s : MiddlewareManager) : List TimerCall :=
  timerCalls (updatePassCalls env (updateOperateCache env s).updateList (updateOperateCache env s))

/-- A pending map after the assignments a sequence of requests makes, first to last. -/
def assignAll (m : List (IMiddlewarePtr × Bool)) (calls : List TimerCall) :
    List (IMiddlewarePtr × Bool) :=
  calls.foldl (fun m c => mapAssign m c.editor c.wantActive) m

/-- A sample environment in which participant 1, from its `update`, asks to be removed,
registers participant 3 and fetches the buffer of format 7. -/
def chattyEnv : Env :=
  { sampleEnv with
    editorUpdate := fun editor _ =>
      if editor = 1 then [Call.removeTimer 1, Call.addTimer 3, Call.getMeshBuffer 7] else [] }

instance (s : MiddlewareManager) : Decidable (cacheWF s) :=
  inferInstanceAs (Decidable (mapKeys s.operateCacheMap).Nodup)

/-- A sample reachable manager: participants 1 and 2 are registered on a fresh manager and
one `update` runs with `chattyEnv`. -/
def reachedManager : MiddlewareManager :=
  (update chattyEnv
    (applyCall chattyEnv (applyCall chattyEnv MiddlewareManager.fresh (Call.addTimer 1))
      (Call.addTimer 2)) 16).state

/-- A manager one public call away from the fresh one: the query
`getIBTypedArrayLength(3, 0)` for a format that has no buffer. -/
def queriedManager : MiddlewareManager :=
  applyCall sampleEnv MiddlewareManager.fresh (Call.getIBTypedArrayLength 3 0)

/-! ## Containers -/

section maps
variable {K V : Type} [DecidableEq K]

theorem mapFind_mapAssign (m : List (K × V)) (k k' : K) (v : V) :
    mapFind (mapAssign m k v) k' = if k = k' then some v else mapFind m k' := by
  induction m with
  | nil => simp [mapAssign, mapFind]
  | cons e rest ih =>
    obtain ⟨a, b⟩ := e
    by_cases h : a = k
    · subst h
      by_cases h2 : a = k' <;> simp [mapAssign, mapFind, h2]
    · by_cases h2 : k = k'
      · subst h2
        simp [mapAssign, mapFind, h, ih]
      · simp only [mapAssign, h, if_false, mapFind, ih, h2]

theorem mapKeys_mapAssign (m : List (K × V)) (k : K) (v : V) :
    mapKeys (mapAssign m k v) = if k ∈ mapKeys m then mapKeys m else mapKeys m ++ [k] := by
  induction m with
  | nil => simp [mapAssign, mapKeys]
  | cons e rest ih =>
    obtain ⟨a, b⟩ := e
    by_cases h : a = k
    · subst h
      simp [mapAssign, mapKeys]
    · have h' : ¬ k = a := fun e => h e.symm
      simp only [mapKeys] at ih
      by_cases h2 : k ∈ List.map Prod.fst rest
      · simp [mapAssign, mapKeys, h, h', h2, ih]
      · simp [mapAssign, mapKeys, h, h', h2, ih]

theorem mapKeys_mapAssign_nodup (m : List (K × V)) (k : K) (v : V)
    (h : (mapKeys m).Nodup) : (mapKeys (mapAssign m k v)).Nodup := by
  rw [mapKeys_mapAssign]
  split
  · exact h
  · rename_i hk
    exact List.Nodup.append h (List.nodup_singleton k) (by simpa using hk)

theorem mapFind_eq_none (m : List (K × V)) (k : K) :
    mapFind m k = none ↔ k ∉ mapKeys m := by
  induction m with
  | nil => simp [mapFind, mapKeys]
  | cons e rest ih =>
    obtain ⟨a, b⟩ := e
    simp only [mapKeys] at ih
    by_cases h : a = k
    · simp [mapFind, mapKeys, h]
    · have h' : ¬ k = a := fun e => h e.symm
      simp [mapFind, mapKeys, h, h', ih]

theorem mem_of_mapFind (m : List (K × V)) (k : K) (v : V) (h : mapFind m k = some v) :
    (k, v) ∈ m := by
  induction m with
  | nil => simp [mapFind] at h
  | cons e rest ih =>
    obtain ⟨a, b⟩ := e
    by_cases hk : a = k
    · simp [mapFind, hk] at h
      simp [hk, h]
    · simp [mapFind, hk] at h
      exact List.mem_cons_of_mem _ (ih h)

theorem mapFind_of_mem (m : List (K × V)) (k : K) (v : V) (hnd : (mapKeys m).Nodup)
    (h : (k, v) ∈ m) : mapFind m k = some v := by
  induction m with
  | nil => simp at h
  | cons e rest ih =>
    obtain ⟨a, b⟩ := e
    simp only [mapKeys, List.map_cons, List.nodup_cons] at hnd
    rcases List.mem_cons.mp h with h1 | h1
    · simp only [Prod.mk.injEq] at h1
      simp [mapFind, h1.1, h1.2]
    · have hne : a ≠ k := by
        intro e
        apply hnd.1
        rw [e]
        exact List.mem_map_of_mem Prod.fst h1
      simp only [mapFind, hne, if_false]
      exact ih hnd.2 h1

end maps

theorem flushEntry_nodup (l : List IMiddlewarePtr) (e : IMiddlewarePtr × Bool) (h : l.Nodup) :
    (flushEntry l e).Nodup := by
  unfold flushEntry
  split
  · split
    · exact h
    · rename_i hm
      exact List.Nodup.append h (List.nodup_singleton _) (by simpa using hm)
  · split
    · exact h.erase _
    · exact h

theorem mem_flushEntry_of_ne (l : List IMiddlewarePtr) (e : IMiddlewarePtr × Bool)
    (q : IMiddlewarePtr) (h : q ≠ e.1) : q ∈ flushEntry l e ↔ q ∈ l := by
  unfold flushEntry
  split
  · split
    · rfl
    · simp [h]
  · split
    · exact List.mem_erase_of_ne h
    · rfl

theorem mem_flushEntry_self (l : List IMiddlewarePtr) (e : IMiddlewarePtr × Bool)
    (h : l.Nodup) : e.1 ∈ flushEntry l e ↔ e.2 = true := by
  unfold flushEntry
  by_cases hb : e.2 = true
  · by_cases hm : e.1 ∈ l <;> simp [hb, hm]
  · by_cases hm : e.1 ∈ l
    · simp [hb, hm, h.mem_erase_iff]
    · simp [hb, hm]

theorem foldl_flushEntry_nodup (es : List (IMiddlewarePtr × Bool)) (l : List IMiddlewarePtr)
    (h : l.Nodup) : (es.foldl flushEntry l).Nodup := by
  induction es generalizing l with
  | nil => exact h
  | cons e rest ih => exact ih _ (flushEntry_nodup l e h)

theorem mem_foldl_flushEntry_of_not_key (es : List (IMiddlewarePtr × Bool))
    (l : List IMiddlewarePtr) (p : IMiddlewarePtr) (h : p ∉ mapKeys es) :
    p ∈ es.foldl flushEntry l ↔ p ∈ l := by
  induction es generalizing l with
  | nil => rfl
  | cons e rest ih =>
    simp only [mapKeys, List.map_cons, List.mem_cons, not_or] at h
    rw [List.foldl_cons, ih _ h.2]
    exact mem_flushEntry_of_ne l e p h.1

theorem mem_foldl_flushEntry_of_entry (es : List (IMiddlewarePtr × Bool))
    (l : List IMiddlewarePtr) (p : IMiddlewarePtr) (b : Bool) (hk : (mapKeys es).Nodup)
    (hl : l.Nodup) (h : (p, b) ∈ es) : p ∈ es.foldl flushEntry l ↔ b = true := by
  induction es generalizing l with
  | nil => simp at h
  | cons e rest ih =>
    simp only [mapKeys, List.map_cons, List.nodup_cons] at hk
    rw [List.foldl_cons]
    rcases List.mem_cons.mp h with h1 | h1
    · subst h1
      rw [mem_foldl_flushEntry_of_not_key rest _ p hk.1]
      exact mem_flushEntry_self l (p, b) hl
    · exact ih _ hk.2 (flushEntry_nodup l e hl) h1

theorem not_mem_foldl_flushEntry (es : List (IMiddlewarePtr × Bool))
    (l : List IMiddlewarePtr) (p : IMiddlewarePtr) (hp : p ∉ l) (h : (p, true) ∉ es) :
    p ∉ es.foldl flushEntry l := by
  induction es generalizing l with
  | nil => exact hp
  | cons e rest ih =>
    rw [List.foldl_cons]
    simp only [List.mem_cons, not_or] at h
    apply ih _ _ h.2
    by_cases hq : p = e.1
    · unfold flushEntry
      have hb : e.2 = false := by
        cases hb : e.2
        · rfl
        · exfalso
          apply h.1
          rw [hq, ← hb]
      have hm : e.1 ∉ l := hq ▸ hp
      simp [hb, hm, hp]
    · rw [mem_flushEntry_of_ne l e p hq]
      exact hp

theorem runTimerCalls_append (s : MiddlewareManager) (xs ys : List TimerCall) :
    runTimerCalls s (xs ++ ys) = runTimerCalls (runTimerCalls s xs) ys := by
  simp [runTimerCalls, List.foldl_append]

theorem TimerCall.run_eq (s : MiddlewareManager) (c : TimerCall) :
    c.run s = { s with operateCacheMap := mapAssign s.operateCacheMap c.editor c.wantActive } := by
  cases c <;> rfl

theorem runTimerCalls_frame (s : MiddlewareManager) (calls : List TimerCall) :
    (runTimerCalls s calls).updateList = s.updateList ∧
    (runTimerCalls s calls).mbMap = s.mbMap ∧
    (runTimerCalls s calls).heap = s.heap := by
  induction calls generalizing s with
  | nil => exact ⟨rfl, rfl, rfl⟩
  | cons c rest ih =>
    have h := ih (c.run s)
    have e : (c.run s).updateList = s.updateList ∧ (c.run s).mbMap = s.mbMap ∧
        (c.run s).heap = s.heap := by cases c <;> exact ⟨rfl, rfl, rfl⟩
    simp only [runTimerCalls, List.foldl_cons] at h ⊢
    exact ⟨h.1.trans e.1, h.2.1.trans e.2.1, h.2.2.trans e.2.2⟩

theorem runTimerCalls_keys_nodup (s : MiddlewareManager) (calls : List TimerCall)
    (h : (mapKeys s.operateCacheMap).Nodup) :
    (mapKeys (runTimerCalls s calls).operateCacheMap).Nodup := by
  induction calls generalizing s with
  | nil => exact h
  | cons c rest ih =>
    simp only [runTimerCalls, List.foldl_cons]
    apply ih
    rw [TimerCall.run_eq]
    exact mapKeys_mapAssign_nodup _ _ _ h

theorem mapFind_runTimerCalls (s : MiddlewareManager) (calls : List TimerCall)
    (p : IMiddlewarePtr) :
    mapFind (runTimerCalls s calls).operateCacheMap p =
      match lastCallFor p calls with
      | some c => some c.wantActive
      | none => mapFind s.operateCacheMap p := by
  induction calls using List.reverseRecOn with
  | nil => simp [runTimerCalls, lastCallFor]
  | append_singleton init c ih =>
    rw [runTimerCalls_append]
    simp only [runTimerCalls, List.foldl_cons, List.foldl_nil] at ih ⊢
    rw [TimerCall.run_eq]
    simp only [mapFind_mapAssign]
    by_cases hc : c.editor = p
    · simp [lastCallFor, List.filter_append, hc]
    · simp only [hc, if_false, ih]
      simp [lastCallFor, List.filter_append, hc]


theorem lastCallFor_editor (p : IMiddlewarePtr) (calls : List TimerCall) (c : TimerCall)
    (h : lastCallFor p calls = some c) : c.editor = p := by
  unfold lastCallFor at h
  have hm := List.mem_of_getLast?_eq_some h
  simpa using (List.mem_filter.mp hm).2

theorem updateOperateCache_updateList (env : Env) (s : MiddlewareManager) :
    (updateOperateCache env s).updateList =
      (env.iterCache s.operateCacheMap).foldl flushEntry s.updateList := rfl

theorem iter_keys_nodup (env : Env) (hiter : ∀ m, (env.iterCache m).Perm m)
    (m : List (IMiddlewarePtr × Bool)) (h : (mapKeys m).Nodup) :
    (mapKeys (env.iterCache m)).Nodup :=
  ((hiter m).map Prod.fst).nodup_iff.mpr h

theorem sampleEnv_iterCache (m : List (IMiddlewarePtr × Bool)) :
    (sampleEnv.iterCache m).Perm m :=
  List.perm_insertionSort _ m

theorem sampleEnv_iterMb (m : List (Int × MeshBufferPtr)) : (sampleEnv.iterMb m).Perm m :=
  List.perm_insertionSort _ m

/-! ## The frame phases -/

theorem getMeshBuffer_frame (s : MiddlewareManager) (format : Int) :
    (getMeshBuffer s format).2.updateList = s.updateList ∧
    (getMeshBuffer s format).2.operateCacheMap = s.operateCacheMap := by
  unfold getMeshBuffer
  simp only
  split <;> exact ⟨rfl, rfl⟩

theorem applyCall_updateList (env : Env) (s : MiddlewareManager) (c : Call) :
    (applyCall env s c).updateList = s.updateList := by
  cases c with
  | addTimer e => rfl
  | removeTimer e => rfl
  | getMeshBuffer f => exact (getMeshBuffer_frame s f).1
  | getVBTypedArray f i => simp only [applyCall, getVBTypedArray]; split <;> rfl
  | getIBTypedArray f i => simp only [applyCall, getIBTypedArray]; split <;> rfl
  | getVBTypedArrayLength f i => simp only [applyCall, getVBTypedArrayLength]; split <;> rfl
  | getIBTypedArrayLength f i => simp only [applyCall, getIBTypedArrayLength]; split <;> rfl
  | getBufferCount f =>
    simp only [applyCall, getBufferCount]
    split <;> exact (getMeshBuffer_frame s f).1

theorem foldl_applyCall_updateList (env : Env) (cs : List Call) (s : MiddlewareManager) :
    (cs.foldl (applyCall env) s).updateList = s.updateList := by
  induction cs generalizing s with
  | nil => rfl
  | cons c rest ih => rw [List.foldl_cons, ih, applyCall_updateList]

theorem updatePass_updateList (env : Env) (dt : Nat) (l : List IMiddlewarePtr)
    (s : MiddlewareManager) : (updatePass env dt l s).state.updateList = s.updateList := by
  induction l generalizing s with
  | nil => rfl
  | cons e rest ih =>
    simp only [updatePass]
    rw [ih, foldl_applyCall_updateList]

theorem updatePass_trace (env : Env) (dt : Nat) (l : List IMiddlewarePtr)
    (s : MiddlewareManager) :
    (updatePass env dt l s).trace = l.map (fun e => Event.editorUpdate e dt) := by
  induction l generalizing s with
  | nil => rfl
  | cons e rest ih =>
    simp only [updatePass, List.map_cons]
    rw [ih]

theorem renderPass_updateList (env : Env) (dt : Nat) (l : List IMiddlewarePtr)
    (s : MiddlewareManager) : (renderPass env dt l s).state.updateList = s.updateList := by
  induction l generalizing s with
  | nil => rfl
  | cons e rest ih =>
    simp only [renderPass]
    rw [ih, foldl_applyCall_updateList]

theorem renderPass_trace (env : Env) (dt : Nat) (l : List IMiddlewarePtr)
    (s : MiddlewareManager) :
    (renderPass env dt l s).trace = l.map (fun e => Event.editorRender e dt) := by
  induction l generalizing s with
  | nil => rfl
  | cons e rest ih =>
    simp only [renderPass, List.map_cons]
    rw [ih]

theorem postEntry_sublist (l : List IMiddlewarePtr) (e : IMiddlewarePtr × Bool) :
    (postEntry l e).Sublist l := by
  unfold postEntry
  split
  · exact List.erase_sublist _ _
  · exact List.Sublist.refl _

theorem foldl_postEntry_sublist (es : List (IMiddlewarePtr × Bool)) (l : List IMiddlewarePtr) :
    (es.foldl postEntry l).Sublist l := by
  induction es generalizing l with
  | nil => exact List.Sublist.refl _
  | cons e rest ih => exact (ih _).trans (postEntry_sublist l e)

theorem mem_resetPass (es : List (Int × MeshBufferPtr)) (e : Event) (h : e ∈ resetPass es) :
    ∃ mb, e = Event.mbReset mb := by
  induction es with
  | nil => simp [resetPass] at h
  | cons it rest ih =>
    simp only [resetPass, List.mem_append] at h
    rcases h with h | h
    · split at h
      · exact ⟨it.2, by simpa using h⟩
      · simp at h
    · exact ih h

theorem mem_uploadPass (env : Env) (es : List (Int × MeshBufferPtr)) (e : Event)
    (h : e ∈ (uploadPass env es).1) :
    (∃ mb, e = Event.uploadIB mb) ∨ (∃ mb, e = Event.uploadVB mb) ∨
      ∃ it ∈ es, e = Event.syncMeshBuffersToNative it.1
        (if it.1 = env.VF_XYZUVCC then 65535 else 65534) it.2 := by
  induction es with
  | nil => simp [uploadPass] at h
  | cons it rest ih =>
    simp only [uploadPass] at h
    split at h
    · simp only [List.mem_cons] at h
      rcases h with h | h | h | h
      · exact Or.inl ⟨_, h⟩
      · exact Or.inr (Or.inl ⟨_, h⟩)
      · exact Or.inr (Or.inr ⟨it, List.mem_cons_self _ _, h⟩)
      · rcases ih h with h1 | h1 | ⟨it', hit, h1⟩
        · exact Or.inl h1
        · exact Or.inr (Or.inl h1)
        · exact Or.inr (Or.inr ⟨it', List.mem_cons_of_mem _ hit, h1⟩)
    · simp at h

theorem update_trace (env : Env) (s : MiddlewareManager) (dt : Nat) :
    (update env s dt).trace =
      Event.attachInfoReset :: (if env.attachBuffer then [Event.attachWriteUint32 0] else []) ++
        (updateOperateCache env s).updateList.map (fun e => Event.editorUpdate e dt) := by
  simp only [update, updatePass_trace]

theorem update_updateList_sublist (env : Env) (s : MiddlewareManager) (dt : Nat) :
    (update env s dt).state.updateList.Sublist (updateOperateCache env s).updateList := by
  simp only [update]
  have h := foldl_postEntry_sublist
    (env.iterCache (updatePass env dt (updateOperateCache env s).updateList
      (updateOperateCache env s)).state.operateCacheMap)
    (updatePass env dt (updateOperateCache env s).updateList
      (updateOperateCache env s)).state.updateList
  exact h.trans (by rw [updatePass_updateList])

theorem render_trace (env : Env) (s : MiddlewareManager) (dt : Nat) :
    (render env s dt).trace =
      resetPass (env.iterMb s.mbMap) ++ s.updateList.map (fun e => Event.editorRender e dt) ++
        (uploadPass env (env.iterMb (renderPass env dt s.updateList s).state.mbMap)).1 := by
  simp only [render, renderPass_trace]

theorem render_state_updateList (env : Env) (s s2 : MiddlewareManager) (dt : Nat)
    (h : (render env s dt).state = some s2) : s2.updateList = s.updateList := by
  simp only [render] at h
  split at h
  · simp only [Option.some.injEq] at h
    rw [← h, renderPass_updateList]
  · simp at h

theorem editorUpdate_mem_update_trace (env : Env) (s : MiddlewareManager) (dt : Nat)
    (p : IMiddlewarePtr) (d : Nat) :
    Event.editorUpdate p d ∈ (update env s dt).trace ↔
      p ∈ (updateOperateCache env s).updateList ∧ d = dt := by
  rw [update_trace]
  constructor
  · intro h
    have h2 : Event.editorUpdate p d ∈
        (updateOperateCache env s).updateList.map (fun e => Event.editorUpdate e dt) := by
      cases hb : env.attachBuffer <;> simpa [hb] using h
    obtain ⟨e, he, heq⟩ := List.mem_map.mp h2
    simp only [Event.editorUpdate.injEq] at heq
    exact ⟨heq.1 ▸ he, heq.2.symm⟩
  · rintro ⟨hp, hd⟩
    apply List.mem_cons_of_mem
    apply List.mem_append_right
    exact List.mem_map.mpr ⟨p, hp, by rw [hd]⟩

theorem editorRender_mem_render_trace (env : Env) (s : MiddlewareManager) (dt : Nat)
    (p : IMiddlewarePtr) (d : Nat) :
    Event.editorRender p d ∈ (render env s dt).trace ↔ p ∈ s.updateList ∧ d = dt := by
  rw [render_trace]
  simp only [List.mem_append, List.mem_map]
  constructor
  · rintro ((h | h) | h)
    · obtain ⟨mb, hmb⟩ := mem_resetPass _ _ h
      simp at hmb
    · obtain ⟨e, he, heq⟩ := h
      simp only [Event.editorRender.injEq] at heq
      exact ⟨heq.1 ▸ he, heq.2.symm⟩
    · rcases mem_uploadPass _ _ _ h with ⟨mb, h1⟩ | ⟨mb, h1⟩ | ⟨it, _, h1⟩ <;> simp at h1
  · rintro ⟨hp, hd⟩
    exact Or.inl (Or.inr ⟨p, hp, by rw [hd]⟩)


theorem mapFind_runTimerCalls_of_no_add (s : MiddlewareManager) (later : List TimerCall)
    (p : IMiddlewarePtr) (h : mapFind s.operateCacheMap p = some false)
    (hlater : TimerCall.addTimer p ∉ later) :
    mapFind (runTimerCalls s later).operateCacheMap p = some false := by
  induction later generalizing s with
  | nil => exact h
  | cons c rest ih =>
    simp only [List.mem_cons, not_or] at hlater
    simp only [runTimerCalls, List.foldl_cons]
    apply ih _ _ hlater.2
    rw [TimerCall.run_eq]
    simp only [mapFind_mapAssign]
    split
    · rename_i he
      cases c with
      | addTimer e =>
        simp only [TimerCall.editor] at he
        exact absurd (he ▸ rfl) hlater.1
      | removeTimer e => rfl
    · exact h

theorem not_mem_of_sublist_of_not_mem {l l2 : List IMiddlewarePtr} {p : IMiddlewarePtr}
    (h : l2.Sublist l) (hp : p ∉ l) : p ∉ l2 :=
  fun hin => hp (h.subset hin)

theorem count_editorUpdate_map (l : List IMiddlewarePtr) (hnd : l.Nodup) (dt : Nat)
    (p : IMiddlewarePtr) (d : Nat) :
    (l.map (fun e => Event.editorUpdate e dt)).count (Event.editorUpdate p d) =
      if p ∈ l ∧ d = dt then 1 else 0 := by
  by_cases hd : d = dt
  · subst hd
    have hinj : Function.Injective (fun e => Event.editorUpdate e d) := by
      intro a b hab
      simpa using hab
    rw [List.count_map_of_injective l _ hinj, List.count_eq_of_nodup hnd]
    simp
  · rw [List.count_eq_zero_of_not_mem]
    · simp [hd]
    · intro hin
      obtain ⟨e, _, heq⟩ := List.mem_map.mp hin
      simp only [Event.editorUpdate.injEq] at heq
      exact hd heq.2.symm

theorem count_editorRender_map (l : List IMiddlewarePtr) (hnd : l.Nodup) (dt : Nat)
    (p : IMiddlewarePtr) (d : Nat) :
    (l.map (fun e => Event.editorRender e dt)).count (Event.editorRender p d) =
      if p ∈ l ∧ d = dt then 1 else 0 := by
  by_cases hd : d = dt
  · subst hd
    have hinj : Function.Injective (fun e => Event.editorRender e d) := by
      intro a b hab
      simpa using hab
    rw [List.count_map_of_injective l _ hinj, List.count_eq_of_nodup hnd]
    simp
  · rw [List.count_eq_zero_of_not_mem]
    · simp [hd]
    · intro hin
      obtain ⟨e, _, heq⟩ := List.mem_map.mp hin
      simp only [Event.editorRender.injEq] at heq
      exact hd heq.2.symm

theorem updateOperateCache_nodup (env : Env) (s : MiddlewareManager) (h : s.updateList.Nodup) :
    (updateOperateCache env s).updateList.Nodup :=
  foldl_flushEntry_nodup _ _ h

theorem update_nodup (env : Env) (s : MiddlewareManager) (dt : Nat) (h : s.updateList.Nodup) :
    (update env s dt).state.updateList.Nodup :=
  (updateOperateCache_nodup env s h).sublist (update_updateList_sublist env s dt)

theorem updateCalls_update (env : Env) (s : MiddlewareManager) (dt : Nat) :
    updateCalls (update env s dt).trace =
      (updateOperateCache env s).updateList.map (fun e => (e, dt)) := by
  rw [update_trace]
  unfold updateCalls
  rw [List.cons_append, List.filterMap_cons, List.filterMap_append, List.filterMap_map]
  have h1 : List.filterMap (fun ev => match ev with
      | Event.editorUpdate editor dt => some (editor, dt)
      | _ => none) (if env.attachBuffer then [Event.attachWriteUint32 0] else []) = [] := by
    cases env.attachBuffer <;> rfl
  rw [h1]
  simp only [List.nil_append]
  have hc : ((fun ev => match ev with
      | Event.editorUpdate editor dt => some (editor, dt)
      | _ => none) ∘ fun e => Event.editorUpdate e dt) = some ∘ fun e => (e, dt) := rfl
  rw [hc, List.filterMap_eq_map]

theorem renderCalls_render (env : Env) (s : MiddlewareManager) (dt : Nat) :
    renderCalls (render env s dt).trace = s.updateList.map (fun e => (e, dt)) := by
  rw [render_trace]
  unfold renderCalls
  rw [List.filterMap_append, List.filterMap_append, List.filterMap_map]
  have h1 : List.filterMap (fun ev => match ev with
      | Event.editorRender editor dt => some (editor, dt)
      | _ => none) (resetPass (env.iterMb s.mbMap)) = [] := by
    rw [List.filterMap_eq_nil_iff]
    intro e he
    obtain ⟨mb, hmb⟩ := mem_resetPass _ _ he
    rw [hmb]
  have h2 : List.filterMap (fun ev => match ev with
      | Event.editorRender editor dt => some (editor, dt)
      | _ => none)
      (uploadPass env (env.iterMb (renderPass env dt s.updateList s).state.mbMap)).1 = [] := by
    rw [List.filterMap_eq_nil_iff]
    intro e he
    rcases mem_uploadPass _ _ _ he with ⟨mb, h⟩ | ⟨mb, h⟩ | ⟨it, _, h⟩ <;> rw [h]
  rw [h1, h2]
  simp only [List.nil_append, List.append_nil]
  have hc : ((fun ev => match ev with
      | Event.editorRender editor dt => some (editor, dt)
      | _ => none) ∘ fun e => Event.editorRender e dt) = some ∘ fun e => (e, dt) := rfl
  rw [hc, List.filterMap_eq_map]

theorem perm_pair {α : Type} (x y : α) (l : List α) (h : l.Perm [x, y]) :
    l = [x, y] ∨ l = [y, x] := by
  have hlen := h.length_eq
  match l, hlen, h with
  | [u, v], _, h =>
    by_cases hu : u = x
    · subst hu
      have h2 := (List.perm_cons u).mp h
      rw [List.perm_singleton] at h2
      exact Or.inl (by rw [h2])
    · have hmem : u ∈ [x, y] := h.subset (List.mem_cons_self _ _)
      simp only [List.mem_cons, List.mem_singleton, List.not_mem_nil, or_false] at hmem
      rcases hmem with hmem | hmem
      · exact absurd hmem hu
      · subst hmem
        have h2 := (List.perm_cons u).mp (h.trans (List.Perm.swap u x []))
        rw [List.perm_singleton] at h2
        exact Or.inr (by rw [h2])

theorem foldl_flushEntry_pair (l : List IMiddlewarePtr) (a b : IMiddlewarePtr) (hab : a ≠ b)
    (ha : a ∉ l) (hb : b ∉ l) :
    [(a, true), (b, true)].foldl flushEntry l = l ++ [a, b] := by
  have hb2 : b ∉ l ++ [a] := by
    simp only [List.mem_append, List.mem_singleton, not_or]
    exact ⟨hb, fun e => hab e.symm⟩
  simp [flushEntry, ha, hb2]


/-! ## The format map -/

section moreMaps
variable {K V : Type} [DecidableEq K]

theorem mapAssign_of_not_mem (m : List (K × V)) (k : K) (v : V) (h : k ∉ mapKeys m) :
    mapAssign m k v = m ++ [(k, v)] := by
  induction m with
  | nil => rfl
  | cons e rest ih =>
    obtain ⟨a, b⟩ := e
    simp only [mapKeys, List.map_cons, List.mem_cons, not_or] at h
    have hne : ¬ a = k := fun e => h.1 e.symm
    simp only [mapAssign, hne, if_false, List.cons_append]
    rw [ih h.2]

theorem mapAssign_mapAssign (m : List (K × V)) (k : K) (v w : V) :
    mapAssign (mapAssign m k v) k w = mapAssign m k w := by
  induction m with
  | nil => simp [mapAssign]
  | cons e rest ih =>
    obtain ⟨a, b⟩ := e
    by_cases h : a = k
    · simp [mapAssign, h]
    · simp [mapAssign, h, ih]

theorem mem_mapAssign (m : List (K × V)) (k : K) (v : V) (it : K × V)
    (h : it ∈ mapAssign m k v) : it = (k, v) ∨ it ∈ m := by
  induction m with
  | nil =>
    simp only [mapAssign, List.mem_singleton] at h
    exact Or.inl h
  | cons e rest ih =>
    obtain ⟨a, b⟩ := e
    simp only [mapAssign] at h
    split at h
    · rcases List.mem_cons.mp h with h1 | h1
      · exact Or.inl h1
      · exact Or.inr (List.mem_cons_of_mem _ h1)
    · rcases List.mem_cons.mp h with h1 | h1
      · exact Or.inr (h1 ▸ List.mem_cons_self _ _)
      · rcases ih h1 with h2 | h2
        · exact Or.inl h2
        · exact Or.inr (List.mem_cons_of_mem _ h2)

theorem mapIndex_of_some (m : List (K × V)) (k : K) (d v : V) (h : mapFind m k = some v) :
    mapIndex m k d = (v, m) := by
  simp [mapIndex, h]

theorem mapIndex_of_none (m : List (K × V)) (k : K) (d : V) (h : mapFind m k = none) :
    mapIndex m k d = (d, m ++ [(k, d)]) := by
  simp only [mapIndex, h]
  rw [mapAssign_of_not_mem m k d ((mapFind_eq_none m k).mp h)]

end moreMaps

theorem getMeshBuffer_of_live (s : MiddlewareManager) (format : Int) (mb : MeshBufferPtr)
    (h : mapFind s.mbMap format = some mb) (hmb : mb ≠ 0) :
    getMeshBuffer s format = (mb, s) := by
  simp [getMeshBuffer, mapIndex_of_some _ _ _ _ h, hmb]

theorem getMeshBuffer_of_none (s : MiddlewareManager) (format : Int)
    (h : meshBufferOf s format = 0) :
    getMeshBuffer s format =
      (s.heap.length + 1,
        { s with mbMap := mapAssign s.mbMap format (s.heap.length + 1),
                 heap := s.heap ++ [format] }) := by
  unfold meshBufferOf at h
  cases hf : mapFind s.mbMap format with
  | none =>
    simp only [getMeshBuffer, mapIndex, hf, if_true, mapAssign_mapAssign]
  | some v =>
    rw [hf] at h
    simp only [Option.getD_some] at h
    subst h
    simp only [getMeshBuffer, mapIndex, hf, if_true]

theorem getMeshBuffer_cases (s : MiddlewareManager) (format : Int) :
    (meshBufferOf s format ≠ 0 ∧ getMeshBuffer s format = (meshBufferOf s format, s)) ∨
    (meshBufferOf s format = 0 ∧ getMeshBuffer s format =
      (s.heap.length + 1,
        { s with mbMap := mapAssign s.mbMap format (s.heap.length + 1),
                 heap := s.heap ++ [format] })) := by
  by_cases h : meshBufferOf s format = 0
  · exact Or.inr ⟨h, getMeshBuffer_of_none s format h⟩
  · left
    refine ⟨h, ?_⟩
    unfold meshBufferOf at h ⊢
    cases hf : mapFind s.mbMap format with
    | none => simp [hf] at h
    | some v =>
      rw [hf] at h
      exact getMeshBuffer_of_live s format v hf h

theorem meshBufferOf_getMeshBuffer (s : MiddlewareManager) (format : Int) :
    meshBufferOf (getMeshBuffer s format).2 format = (getMeshBuffer s format).1 := by
  rcases getMeshBuffer_cases s format with ⟨_, h⟩ | ⟨_, h⟩
  · rw [h]
  · rw [h]
    simp [meshBufferOf, mapFind_mapAssign]

theorem getMeshBuffer_ne_null (s : MiddlewareManager) (format : Int) :
    (getMeshBuffer s format).1 ≠ 0 := by
  rcases getMeshBuffer_cases s format with ⟨h0, h⟩ | ⟨_, h⟩
  · rw [h]; exact h0
  · rw [h]; exact Nat.succ_ne_zero _

theorem meshBufferOf_getMeshBuffer_of_ne (s : MiddlewareManager) (f g : Int) (hfg : f ≠ g) :
    meshBufferOf (getMeshBuffer s g).2 f = meshBufferOf s f := by
  rcases getMeshBuffer_cases s g with ⟨_, h⟩ | ⟨_, h⟩
  · rw [h]
  · rw [h]
    have hgf : ¬ g = f := fun e => hfg e.symm
    simp only [meshBufferOf, mapFind_mapAssign, hgf, if_false]

theorem getMeshBuffer_mbWF (s : MiddlewareManager) (format : Int) (h : mbWF s) :
    mbWF (getMeshBuffer s format).2 := by
  rcases getMeshBuffer_cases s format with ⟨_, he⟩ | ⟨_, he⟩
  · rw [he]; exact h
  · rw [he]
    obtain ⟨h1, h2, h3⟩ := h
    refine ⟨mapKeys_mapAssign_nodup _ _ _ h1, ?_, ?_⟩
    · intro it hit
      simp only [List.length_append, List.length_singleton]
      rcases mem_mapAssign _ _ _ _ hit with e | e
      · rw [e]
      · exact Nat.le_succ_of_le (h2 it e)
    · intro it hit it2 hit2 hne heq
      rcases mem_mapAssign _ _ _ _ hit with e | e <;>
        rcases mem_mapAssign _ _ _ _ hit2 with e2 | e2
      · rw [e, e2]
      · exfalso
        have := h2 it2 e2
        rw [← heq, e] at this
        simp at this
      · exfalso
        have := h2 it e
        rw [heq, e2] at this
        simp at this
      · exact h3 it e it2 e2 hne heq

theorem mem_of_meshBufferOf (s : MiddlewareManager) (f : Int) (h : meshBufferOf s f ≠ 0) :
    (f, meshBufferOf s f) ∈ s.mbMap := by
  unfold meshBufferOf at h ⊢
  cases hf : mapFind s.mbMap f with
  | none => simp [hf] at h
  | some v => exact mem_of_mapFind _ _ _ hf

theorem getMeshBuffer_injective (s : MiddlewareManager) (f g : Int) (hwf : mbWF s)
    (hfg : f ≠ g) :
    (getMeshBuffer s f).1 ≠ (getMeshBuffer (getMeshBuffer s f).2 g).1 := by
  have hwf1 := getMeshBuffer_mbWF s f hwf
  have hf1 := meshBufferOf_getMeshBuffer s f
  have hne := getMeshBuffer_ne_null s f
  generalize getMeshBuffer s f = r1 at hwf1 hf1 hne
  obtain ⟨p1, s1⟩ := r1
  simp only at hwf1 hf1 hne ⊢
  have hmem1 : (f, p1) ∈ s1.mbMap := by
    have := mem_of_meshBufferOf s1 f (by rw [hf1]; exact hne)
    rwa [hf1] at this
  rcases getMeshBuffer_cases s1 g with ⟨h0, he⟩ | ⟨_, he⟩
  · rw [he]
    intro heq
    simp only at heq
    have hmem2 := mem_of_meshBufferOf s1 g h0
    exact hfg (hwf1.2.2 _ hmem1 _ hmem2 hne heq)
  · rw [he]
    intro heq
    simp only at heq
    have hle : p1 ≤ s1.heap.length := hwf1.2.1 _ hmem1
    rw [heq] at hle
    exact Nat.not_succ_le_self _ hle


theorem mapFind_of_meshBufferOf (s : MiddlewareManager) (f : Int) (h : meshBufferOf s f ≠ 0) :
    mapFind s.mbMap f = some (meshBufferOf s f) := by
  unfold meshBufferOf at h ⊢
  cases hf : mapFind s.mbMap f with
  | none => simp [hf] at h
  | some v => rfl

theorem getMeshBuffer_twice (s : MiddlewareManager) (f : Int) :
    getMeshBuffer (getMeshBuffer s f).2 f = ((getMeshBuffer s f).1, (getMeshBuffer s f).2) := by
  have h1 := meshBufferOf_getMeshBuffer s f
  have hne := getMeshBuffer_ne_null s f
  have hfind := mapFind_of_meshBufferOf (getMeshBuffer s f).2 f (by rw [h1]; exact hne)
  rw [h1] at hfind
  exact getMeshBuffer_of_live _ f _ hfind hne

theorem mapFind_of_meshBufferOf_zero (s : MiddlewareManager) (f : Int)
    (h : meshBufferOf s f = 0) : mapFind s.mbMap f = none ∨ mapFind s.mbMap f = some 0 := by
  unfold meshBufferOf at h
  cases hf : mapFind s.mbMap f with
  | none => exact Or.inl rfl
  | some v =>
    rw [hf] at h
    simp only [Option.getD_some] at h
    exact Or.inr (by rw [h])

theorem mapIndex_fst_mbMap (s : MiddlewareManager) (f : Int) :
    (mapIndex s.mbMap f 0).1 = meshBufferOf s f := by
  unfold mapIndex meshBufferOf
  cases mapFind s.mbMap f <;> rfl


theorem uploadPass_complete (env : Env) (es : List (Int × MeshBufferPtr))
    (h : (uploadPass env es).2 = true) :
    ∀ it ∈ es, it.2 ≠ 0 ∧
      Event.syncMeshBuffersToNative it.1 (if it.1 = env.VF_XYZUVCC then 65535 else 65534) it.2 ∈
        (uploadPass env es).1 := by
  induction es with
  | nil => intro it hit; simp at hit
  | cons e rest ih =>
    intro it hit
    simp only [uploadPass] at h ⊢
    split at h
    · rename_i hne
      rw [if_pos hne]
      rcases List.mem_cons.mp hit with h1 | h1
      · subst h1
        exact ⟨hne, by simp⟩
      · have := ih h it h1
        exact ⟨this.1, by simp [this.2]⟩
    · simp at h

theorem render_state (env : Env) (s s2 : MiddlewareManager) (dt : Nat)
    (h : (render env s dt).state = some s2) :
    s2 = (renderPass env dt s.updateList s).state ∧
    (uploadPass env (env.iterMb (renderPass env dt s.updateList s).state.mbMap)).2 = true := by
  simp only [render] at h
  split at h
  · rename_i hflag
    simp only [Option.some.injEq] at h
    exact ⟨h.symm, hflag⟩
  · simp at h

theorem mem_render_trace_sync (env : Env) (s : MiddlewareManager) (dt : Nat) (f : Int)
    (acc : Nat) (mb : MeshBufferPtr)
    (h : Event.syncMeshBuffersToNative f acc mb ∈ (render env s dt).trace) :
    acc = if f = env.VF_XYZUVCC then 65535 else 65534 := by
  rw [render_trace] at h
  simp only [List.mem_append, List.mem_map] at h
  rcases h with (h | h) | h
  · obtain ⟨m, hm⟩ := mem_resetPass _ _ h
    simp at hm
  · obtain ⟨e, _, he⟩ := h
    simp at he
  · rcases mem_uploadPass _ _ _ h with ⟨m, h1⟩ | ⟨m, h1⟩ | ⟨it, _, h1⟩
    · simp at h1
    · simp at h1
    · simp only [Event.syncMeshBuffersToNative.injEq] at h1
      rw [h1.2.1, h1.1]


/-! ## Well-formedness is kept, and what `render` does when it returns -/

theorem mbWF_fresh : mbWF MiddlewareManager.fresh := by decide

theorem mbWF_of_eq (s s2 : MiddlewareManager) (hm : s2.mbMap = s.mbMap) (hh : s2.heap = s.heap)
    (h : mbWF s) : mbWF s2 := by
  unfold mbWF at h ⊢
  rw [hm, hh]
  exact h

theorem mbWF_add_null (s : MiddlewareManager) (f : Int) (h : mbWF s) :
    mbWF { s with mbMap := if mapFind s.mbMap f = none then s.mbMap ++ [(f, 0)] else s.mbMap } := by
  by_cases hf : mapFind s.mbMap f = none
  · simp only [hf, if_true]
    obtain ⟨h1, h2, h3⟩ := h
    have hk := (mapFind_eq_none _ _).mp hf
    refine ⟨?_, ?_, ?_⟩
    · simp only [mapKeys, List.map_append, List.map_cons, List.map_nil]
      refine List.Nodup.append h1 (List.nodup_singleton f) ?_
      rw [List.disjoint_singleton]
      exact hk
    · intro it hit
      rcases List.mem_append.mp hit with e | e
      · exact h2 it e
      · simp only [List.mem_singleton] at e
        rw [e]
        exact Nat.zero_le _
    · intro it hit it2 hit2 hne heq
      rcases List.mem_append.mp hit with e | e
      · rcases List.mem_append.mp hit2 with e2 | e2
        · exact h3 it e it2 e2 hne heq
        · simp only [List.mem_singleton] at e2
          rw [heq, e2] at hne
          exact absurd rfl hne
      · simp only [List.mem_singleton] at e
        rw [e] at hne
        exact absurd rfl hne
  · simp only [hf, if_false]
    exact h

theorem read_accessor_state (env : Env) (s : MiddlewareManager) (f : Int) (i : Int) (j : Nat) :
    (getVBTypedArray env s f i).2 =
      { s with mbMap := if mapFind s.mbMap f = none then s.mbMap ++ [(f, 0)] else s.mbMap } ∧
    (getIBTypedArray env s f i).2 =
      { s with mbMap := if mapFind s.mbMap f = none then s.mbMap ++ [(f, 0)] else s.mbMap } ∧
    (getVBTypedArrayLength env s f j).2 =
      { s with mbMap := if mapFind s.mbMap f = none then s.mbMap ++ [(f, 0)] else s.mbMap } ∧
    (getIBTypedArrayLength env s f j).2 =
      { s with mbMap := if mapFind s.mbMap f = none then s.mbMap ++ [(f, 0)] else s.mbMap } := by
  cases hf : mapFind s.mbMap f with
  | none =>
    refine ⟨?_, ?_, ?_, ?_⟩
    · simp [getVBTypedArray, mapIndex_of_none _ _ _ hf]
    · simp [getIBTypedArray, mapIndex_of_none _ _ _ hf]
    · simp [getVBTypedArrayLength, mapIndex_of_none _ _ _ hf]
    · simp [getIBTypedArrayLength, mapIndex_of_none _ _ _ hf]
  | some v =>
    refine ⟨?_, ?_, ?_, ?_⟩
    · by_cases hv : v = 0 <;> simp [getVBTypedArray, mapIndex_of_some _ _ _ _ hf, hv]
    · by_cases hv : v = 0 <;> simp [getIBTypedArray, mapIndex_of_some _ _ _ _ hf, hv]
    · by_cases hv : v = 0 <;> simp [getVBTypedArrayLength, mapIndex_of_some _ _ _ _ hf, hv]
    · by_cases hv : v = 0 <;> simp [getIBTypedArrayLength, mapIndex_of_some _ _ _ _ hf, hv]

theorem meshBufferOf_add_null (s : MiddlewareManager) (f g : Int) :
    meshBufferOf
      { s with mbMap := if mapFind s.mbMap f = none then s.mbMap ++ [(f, 0)] else s.mbMap } g =
        meshBufferOf s g := by
  by_cases hf : mapFind s.mbMap f = none
  · simp only [hf, if_true, meshBufferOf]
    rw [← mapAssign_of_not_mem _ _ _ ((mapFind_eq_none _ _).mp hf), mapFind_mapAssign]
    split
    · rename_i h
      rw [← h, hf]
      rfl
    · rfl
  · simp only [hf, if_false]

theorem getBufferCount_state (env : Env) (s : MiddlewareManager) (f : Int) :
    (getBufferCount env s f).2 = (getMeshBuffer s f).2 := by
  simp only [getBufferCount]
  split <;> rfl

theorem applyCall_mbWF (env : Env) (s : MiddlewareManager) (c : Call) (h : mbWF s) :
    mbWF (applyCall env s c) := by
  cases c with
  | addTimer e => exact mbWF_of_eq s _ rfl rfl h
  | removeTimer e => exact mbWF_of_eq s _ rfl rfl h
  | getMeshBuffer f => exact getMeshBuffer_mbWF s f h
  | getVBTypedArray f i =>
    simp only [applyCall, (read_accessor_state env s f i 0).1]
    exact mbWF_add_null s f h
  | getIBTypedArray f i =>
    simp only [applyCall, (read_accessor_state env s f i 0).2.1]
    exact mbWF_add_null s f h
  | getVBTypedArrayLength f j =>
    simp only [applyCall, (read_accessor_state env s f 0 j).2.2.1]
    exact mbWF_add_null s f h
  | getIBTypedArrayLength f j =>
    simp only [applyCall, (read_accessor_state env s f 0 j).2.2.2]
    exact mbWF_add_null s f h
  | getBufferCount f =>
    simp only [applyCall, getBufferCount_state]
    exact getMeshBuffer_mbWF s f h

theorem applyCall_meshBufferOf (env : Env) (s : MiddlewareManager) (c : Call) (f : Int)
    (h : meshBufferOf s f ≠ 0) : meshBufferOf (applyCall env s c) f = meshBufferOf s f := by
  have hget : ∀ g, meshBufferOf (getMeshBuffer s g).2 f = meshBufferOf s f := by
    intro g
    by_cases hfg : f = g
    · subst hfg
      rcases getMeshBuffer_cases s f with ⟨_, he⟩ | ⟨h0, _⟩
      · rw [he]
      · exact absurd h0 h
    · exact meshBufferOf_getMeshBuffer_of_ne s f g hfg
  cases c with
  | addTimer e => rfl
  | removeTimer e => rfl
  | getMeshBuffer g => exact hget g
  | getVBTypedArray g i =>
    simp only [applyCall, (read_accessor_state env s g i 0).1]
    exact meshBufferOf_add_null s g f
  | getIBTypedArray g i =>
    simp only [applyCall, (read_accessor_state env s g i 0).2.1]
    exact meshBufferOf_add_null s g f
  | getVBTypedArrayLength g j =>
    simp only [applyCall, (read_accessor_state env s g 0 j).2.2.1]
    exact meshBufferOf_add_null s g f
  | getIBTypedArrayLength g j =>
    simp only [applyCall, (read_accessor_state env s g 0 j).2.2.2]
    exact meshBufferOf_add_null s g f
  | getBufferCount g =>
    simp only [applyCall, getBufferCount_state]
    exact hget g

theorem foldl_applyCall_mbWF (env : Env) (cs : List Call) (s : MiddlewareManager) (h : mbWF s) :
    mbWF (cs.foldl (applyCall env) s) := by
  induction cs generalizing s with
  | nil => exact h
  | cons c rest ih => exact ih _ (applyCall_mbWF env s c h)

theorem foldl_applyCall_meshBufferOf (env : Env) (cs : List Call) (s : MiddlewareManager)
    (f : Int) (h : meshBufferOf s f ≠ 0) :
    meshBufferOf (cs.foldl (applyCall env) s) f = meshBufferOf s f := by
  induction cs generalizing s with
  | nil => rfl
  | cons c rest ih =>
    have h1 := applyCall_meshBufferOf env s c f h
    rw [List.foldl_cons, ih _ (by rw [h1]; exact h), h1]

theorem renderPass_mbWF (env : Env) (dt : Nat) (l : List IMiddlewarePtr) (s : MiddlewareManager)
    (h : mbWF s) : mbWF (renderPass env dt l s).state := by
  induction l generalizing s with
  | nil => exact h
  | cons e rest ih => exact ih _ (foldl_applyCall_mbWF env _ s h)

theorem renderPass_meshBufferOf (env : Env) (dt : Nat) (l : List IMiddlewarePtr)
    (s : MiddlewareManager) (f : Int) (h : meshBufferOf s f ≠ 0) :
    meshBufferOf (renderPass env dt l s).state f = meshBufferOf s f := by
  induction l generalizing s with
  | nil => rfl
  | cons e rest ih =>
    have h1 := foldl_applyCall_meshBufferOf env (env.editorRender e s) s f h
    simp only [renderPass]
    rw [ih _ (by rw [h1]; exact h), h1]

theorem updatePass_mbWF (env : Env) (dt : Nat) (l : List IMiddlewarePtr) (s : MiddlewareManager)
    (h : mbWF s) : mbWF (updatePass env dt l s).state := by
  induction l generalizing s with
  | nil => exact h
  | cons e rest ih => exact ih _ (foldl_applyCall_mbWF env _ s h)

theorem update_mbWF (env : Env) (s : MiddlewareManager) (dt : Nat) (h : mbWF s) :
    mbWF (update env s dt).state := by
  have h1 : mbWF (updateOperateCache env s) := mbWF_of_eq s _ rfl rfl h
  have h2 := updatePass_mbWF env dt (updateOperateCache env s).updateList _ h1
  exact mbWF_of_eq _ _ rfl rfl h2

theorem render_mbWF (env : Env) (s s2 : MiddlewareManager) (dt : Nat) (h : mbWF s)
    (h2 : (render env s dt).state = some s2) : mbWF s2 := by
  rw [(render_state env s s2 dt h2).1]
  exact renderPass_mbWF env dt _ s h


theorem entriesWF_of_perm (es es2 : List (Int × MeshBufferPtr)) (hp : es2.Perm es)
    (h : entriesWF es) : entriesWF es2 :=
  ⟨((hp.map Prod.fst).nodup_iff).mpr h.1,
    fun it hit it2 hit2 => h.2 it (hp.mem_iff.mp hit) it2 (hp.mem_iff.mp hit2)⟩

theorem entriesWF_tail (it : Int × MeshBufferPtr) (rest : List (Int × MeshBufferPtr))
    (h : entriesWF (it :: rest)) : entriesWF rest := by
  obtain ⟨h1, h2⟩ := h
  simp only [mapKeys, List.map_cons, List.nodup_cons] at h1
  exact ⟨h1.2, fun a ha b hb => h2 a (List.mem_cons_of_mem _ ha) b (List.mem_cons_of_mem _ hb)⟩

theorem entriesWF_head (it : Int × MeshBufferPtr) (rest : List (Int × MeshBufferPtr))
    (h : entriesWF (it :: rest)) (hne : it.2 ≠ 0) : ∀ it2 ∈ rest, it2.2 ≠ it.2 := by
  intro it2 hit2 heq
  obtain ⟨h1, h2⟩ := h
  simp only [mapKeys, List.map_cons, List.nodup_cons] at h1
  have hk := h2 it (List.mem_cons_self _ _) it2 (List.mem_cons_of_mem _ hit2) hne heq.symm
  exact h1.1 (hk ▸ List.mem_map_of_mem Prod.fst hit2)

theorem mem_resetPass_iff (es : List (Int × MeshBufferPtr)) (e : Event) :
    e ∈ resetPass es ↔ ∃ it ∈ es, it.2 ≠ 0 ∧ e = Event.mbReset it.2 := by
  induction es with
  | nil => simp [resetPass]
  | cons it rest ih =>
    simp only [resetPass, List.mem_append, ih, List.mem_cons, exists_eq_or_imp]
    by_cases h : it.2 = 0
    · simp [h]
    · simp [h]

theorem resetPass_nodup (es : List (Int × MeshBufferPtr)) (h : entriesWF es) :
    (resetPass es).Nodup := by
  induction es with
  | nil => simp [resetPass]
  | cons it rest ih =>
    have ihr := ih (entriesWF_tail it rest h)
    rw [resetPass]
    by_cases hne : it.2 ≠ 0
    · rw [if_pos hne, List.singleton_append, List.nodup_cons]
      refine ⟨?_, ihr⟩
      intro hin
      obtain ⟨it2, hit2, _, heq⟩ := (mem_resetPass_iff rest _).mp hin
      simp only [Event.mbReset.injEq] at heq
      exact entriesWF_head it rest h hne it2 hit2 heq.symm
    · rw [if_neg hne, List.nil_append]
      exact ihr

theorem uploadPass_cons_live (env : Env) (it : Int × MeshBufferPtr)
    (rest : List (Int × MeshBufferPtr)) (hne : it.2 ≠ 0) :
    uploadPass env (it :: rest) =
      (Event.uploadIB it.2 :: Event.uploadVB it.2 ::
        Event.syncMeshBuffersToNative it.1 (if it.1 = env.VF_XYZUVCC then 65535 else 65534) it.2 ::
        (uploadPass env rest).1, (uploadPass env rest).2) := by
  rw [uploadPass, if_pos hne]

theorem uploadPass_cons_null (env : Env) (it : Int × MeshBufferPtr)
    (rest : List (Int × MeshBufferPtr)) (h0 : it.2 = 0) :
    uploadPass env (it :: rest) = ([], false) := by
  simp [uploadPass, h0]

theorem mem_uploadPass_iff (env : Env) (es : List (Int × MeshBufferPtr))
    (hflag : (uploadPass env es).2 = true) (e : Event) :
    e ∈ (uploadPass env es).1 ↔ ∃ it ∈ es, e = Event.uploadIB it.2 ∨ e = Event.uploadVB it.2 ∨
      e = Event.syncMeshBuffersToNative it.1
        (if it.1 = env.VF_XYZUVCC then 65535 else 65534) it.2 := by
  induction es with
  | nil => simp [uploadPass]
  | cons it rest ih =>
    by_cases hne : it.2 ≠ 0
    · rw [uploadPass_cons_live env it rest hne] at hflag ⊢
      simp only [List.mem_cons, exists_eq_or_imp]
      rw [ih hflag]
      constructor
      · rintro (h | h | h | h)
        · exact Or.inl (Or.inl h)
        · exact Or.inl (Or.inr (Or.inl h))
        · exact Or.inl (Or.inr (Or.inr h))
        · exact Or.inr h
      · rintro ((h | h | h) | h)
        · exact Or.inl h
        · exact Or.inr (Or.inl h)
        · exact Or.inr (Or.inr (Or.inl h))
        · exact Or.inr (Or.inr (Or.inr h))
    · rw [uploadPass_cons_null env it rest (not_not.mp hne)] at hflag
      simp at hflag

theorem uploadPass_nodup (env : Env) (es : List (Int × MeshBufferPtr)) (h : entriesWF es)
    (hflag : (uploadPass env es).2 = true) : (uploadPass env es).1.Nodup := by
  induction es with
  | nil => simp [uploadPass]
  | cons it rest ih =>
    have hmemiff := mem_uploadPass_iff env rest
    by_cases hne : it.2 ≠ 0
    · rw [uploadPass_cons_live env it rest hne] at hflag ⊢
      have ihr := ih (entriesWF_tail it rest h) hflag
      have hhead := entriesWF_head it rest h hne
      have hkey : ∀ it2 ∈ rest, it2.1 ≠ it.1 := by
        intro it2 hit2 heq
        have h1 := h.1
        simp only [mapKeys, List.map_cons, List.nodup_cons] at h1
        exact h1.1 (heq ▸ List.mem_map_of_mem Prod.fst hit2)
      simp only [List.nodup_cons, List.mem_cons]
      refine ⟨?_, ?_, ?_, ihr⟩
      · rintro (hc | hc | hc)
        · simp at hc
        · simp at hc
        · obtain ⟨it2, hit2, h2 | h2 | h2⟩ := (hmemiff hflag _).mp hc
          · simp only [Event.uploadIB.injEq] at h2
            exact hhead it2 hit2 h2.symm
          · simp at h2
          · simp at h2
      · rintro (hc | hc)
        · simp at hc
        · obtain ⟨it2, hit2, h2 | h2 | h2⟩ := (hmemiff hflag _).mp hc
          · simp at h2
          · simp only [Event.uploadVB.injEq] at h2
            exact hhead it2 hit2 h2.symm
          · simp at h2
      · intro hc
        obtain ⟨it2, hit2, h2 | h2 | h2⟩ := (hmemiff hflag _).mp hc
        · simp at h2
        · simp at h2
        · simp only [Event.syncMeshBuffersToNative.injEq] at h2
          exact hkey it2 hit2 h2.1.symm
    · rw [uploadPass_cons_null env it rest (not_not.mp hne)] at hflag
      simp at hflag

theorem uploadPass_sublist (env : Env) (es : List (Int × MeshBufferPtr))
    (hflag : (uploadPass env es).2 = true) (it : Int × MeshBufferPtr) (hit : it ∈ es) :
    [Event.uploadIB it.2, Event.uploadVB it.2,
      Event.syncMeshBuffersToNative it.1 (if it.1 = env.VF_XYZUVCC then 65535 else 65534)
        it.2].Sublist (uploadPass env es).1 := by
  induction es with
  | nil => simp at hit
  | cons e rest ih =>
    by_cases hne : e.2 ≠ 0
    · rw [uploadPass_cons_live env e rest hne] at hflag ⊢
      rcases List.mem_cons.mp hit with h1 | h1
      · subst h1
        exact List.Sublist.cons₂ _ (List.Sublist.cons₂ _ (List.Sublist.cons₂ _ (List.nil_sublist _)))
      · exact List.Sublist.cons _ (List.Sublist.cons _ (List.Sublist.cons _ (ih hflag h1)))
    · rw [uploadPass_cons_null env e rest (not_not.mp hne)] at hflag
      simp at hflag


theorem entriesWF_of_mbWF (env : Env) (hiter : ∀ m, (env.iterMb m).Perm m)
    (s : MiddlewareManager) (h : mbWF s) : entriesWF (env.iterMb s.mbMap) :=
  entriesWF_of_perm _ _ (hiter _) ⟨h.1, h.2.2⟩

theorem count_append3_left (a b c : List Event) (x : Event) (ha : a.Nodup) (hx : x ∈ a)
    (hb : x ∉ b) (hc : x ∉ c) : (a ++ b ++ c).count x = 1 := by
  rw [List.count_append, List.count_append, List.count_eq_one_of_mem ha hx,
    List.count_eq_zero_of_not_mem hb, List.count_eq_zero_of_not_mem hc]

theorem count_append3_right (a b c : List Event) (x : Event) (hc : c.Nodup) (hx : x ∈ c)
    (ha : x ∉ a) (hb : x ∉ b) : (a ++ b ++ c).count x = 1 := by
  rw [List.count_append, List.count_append, List.count_eq_one_of_mem hc hx,
    List.count_eq_zero_of_not_mem ha, List.count_eq_zero_of_not_mem hb]

theorem render_sequencing (env : Env) (hiter : ∀ m, (env.iterMb m).Perm m)
    (s s2 : MiddlewareManager) (hwf : mbWF s) (dt : Nat)
    (hret : (render env s dt).state = some s2) (f : Int) (hm : meshBufferOf s f ≠ 0) :
    (render env s dt).trace.count (Event.mbReset (meshBufferOf s f)) = 1 ∧
    (render env s dt).trace.count (Event.uploadIB (meshBufferOf s f)) = 1 ∧
    (render env s dt).trace.count (Event.uploadVB (meshBufferOf s f)) = 1 ∧
    (render env s dt).trace.count (Event.syncMeshBuffersToNative f
      (if f = env.VF_XYZUVCC then 65535 else 65534) (meshBufferOf s f)) = 1 ∧
    (∀ acc mb, Event.syncMeshBuffersToNative f acc mb ∈ (render env s dt).trace →
      acc = (if f = env.VF_XYZUVCC then 65535 else 65534) ∧ mb = meshBufferOf s f) ∧
    ∃ resets uploads,
      (render env s dt).trace =
        resets ++ s.updateList.map (fun e => Event.editorRender e dt) ++ uploads ∧
      Event.mbReset (meshBufferOf s f) ∈ resets ∧
      [Event.uploadIB (meshBufferOf s f), Event.uploadVB (meshBufferOf s f),
        Event.syncMeshBuffersToNative f (if f = env.VF_XYZUVCC then 65535 else 65534)
          (meshBufferOf s f)].Sublist uploads := by
  obtain ⟨_, hflag⟩ := render_state env s s2 dt hret
  have hwfF := renderPass_mbWF env dt s.updateList s hwf
  have hmF := renderPass_meshBufferOf env dt s.updateList s f hm
  generalize hsF : (renderPass env dt s.updateList s).state = sF at hflag hwfF hmF
  generalize hmd : meshBufferOf s f = m at hm hmF
  have hin0 : (f, m) ∈ env.iterMb s.mbMap := by
    rw [(hiter _).mem_iff, ← hmd]
    exact mem_of_meshBufferOf s f (by rw [hmd]; exact hm)
  have hinF : (f, m) ∈ env.iterMb sF.mbMap := by
    rw [(hiter _).mem_iff, ← hmF]
    exact mem_of_meshBufferOf sF f (by rw [hmF]; exact hm)
  have hR := resetPass_nodup _ (entriesWF_of_mbWF env hiter s hwf)
  have hU := uploadPass_nodup env _ (entriesWF_of_mbWF env hiter sF hwfF) hflag
  have hUiff := mem_uploadPass_iff env _ hflag
  have hreset : Event.mbReset m ∈ resetPass (env.iterMb s.mbMap) :=
    (mem_resetPass_iff _ _).mpr ⟨(f, m), hin0, hm, rfl⟩
  have hmid : ∀ x, (∀ e d, x ≠ Event.editorRender e d) →
      x ∉ s.updateList.map (fun e => Event.editorRender e dt) := by
    intro x hx hin
    obtain ⟨e, _, he⟩ := List.mem_map.mp hin
    exact hx e dt he.symm
  have hnotR : ∀ x, (∀ mb, x ≠ Event.mbReset mb) → x ∉ resetPass (env.iterMb s.mbMap) := by
    intro x hx hin
    obtain ⟨it, _, _, he⟩ := (mem_resetPass_iff _ _).mp hin
    exact hx _ he
  have htrace : (render env s dt).trace = resetPass (env.iterMb s.mbMap) ++
      s.updateList.map (fun e => Event.editorRender e dt) ++
        (uploadPass env (env.iterMb sF.mbMap)).1 := by
    rw [render_trace, hsF]
  rw [htrace]
  refine ⟨?_, ?_, ?_, ?_, ?_, ⟨_, _, rfl, hreset, uploadPass_sublist env _ hflag (f, m) hinF⟩⟩
  · apply count_append3_left _ _ _ _ hR hreset (hmid _ (by simp))
    intro hin
    obtain ⟨it, _, h | h | h⟩ := (hUiff _).mp hin <;> simp at h
  · apply count_append3_right _ _ _ _ hU ((hUiff _).mpr ⟨(f, m), hinF, Or.inl rfl⟩)
      (hnotR _ (by simp)) (hmid _ (by simp))
  · apply count_append3_right _ _ _ _ hU ((hUiff _).mpr ⟨(f, m), hinF, Or.inr (Or.inl rfl)⟩)
      (hnotR _ (by simp)) (hmid _ (by simp))
  · apply count_append3_right _ _ _ _ hU ((hUiff _).mpr ⟨(f, m), hinF, Or.inr (Or.inr rfl)⟩)
      (hnotR _ (by simp)) (hmid _ (by simp))
  · intro acc mb hin
    simp only [List.mem_append] at hin
    rcases hin with (hin | hin) | hin
    · exact absurd hin (hnotR _ (by simp))
    · exact absurd hin (hmid _ (by simp))
    · obtain ⟨it, hit, h | h | h⟩ := (hUiff _).mp hin
      · simp at h
      · simp at h
      · simp only [Event.syncMeshBuffersToNative.injEq] at h
        obtain ⟨h1, h2, h3⟩ := h
        have hfind := mapFind_of_mem sF.mbMap it.1 it.2 hwfF.1 ((hiter _).mem_iff.mp hit)
        have : meshBufferOf sF it.1 = it.2 := by simp [meshBufferOf, hfind]
        rw [← h1, hmF] at this
        exact ⟨by rw [h2, h1], by rw [h3, this]⟩


/-! ## Reachable states are well formed -/

theorem getMeshBuffer_cache (s : MiddlewareManager) (f : Int) :
    (getMeshBuffer s f).2.operateCacheMap = s.operateCacheMap :=
  (getMeshBuffer_frame s f).2

theorem applyCall_cacheWF (env : Env) (s : MiddlewareManager) (c : Call) (h : cacheWF s) :
    cacheWF (applyCall env s c) := by
  unfold cacheWF at h ⊢
  cases c with
  | addTimer e => exact mapKeys_mapAssign_nodup _ _ _ h
  | removeTimer e => exact mapKeys_mapAssign_nodup _ _ _ h
  | getMeshBuffer f => simp only [applyCall, getMeshBuffer_cache]; exact h
  | getVBTypedArray f i => simp only [applyCall, (read_accessor_state env s f i 0).1]; exact h
  | getIBTypedArray f i => simp only [applyCall, (read_accessor_state env s f i 0).2.1]; exact h
  | getVBTypedArrayLength f j =>
    simp only [applyCall, (read_accessor_state env s f 0 j).2.2.1]; exact h
  | getIBTypedArrayLength f j =>
    simp only [applyCall, (read_accessor_state env s f 0 j).2.2.2]; exact h
  | getBufferCount f => simp only [applyCall, getBufferCount_state, getMeshBuffer_cache]; exact h

theorem foldl_applyCall_cacheWF (env : Env) (cs : List Call) (s : MiddlewareManager)
    (h : cacheWF s) : cacheWF (cs.foldl (applyCall env) s) := by
  induction cs generalizing s with
  | nil => exact h
  | cons c rest ih => exact ih _ (applyCall_cacheWF env s c h)

theorem updatePass_cacheWF (env : Env) (dt : Nat) (l : List IMiddlewarePtr)
    (s : MiddlewareManager) (h : cacheWF s) : cacheWF (updatePass env dt l s).state := by
  induction l generalizing s with
  | nil => exact h
  | cons e rest ih => exact ih _ (foldl_applyCall_cacheWF env _ s h)

theorem renderPass_cacheWF (env : Env) (dt : Nat) (l : List IMiddlewarePtr)
    (s : MiddlewareManager) (h : cacheWF s) : cacheWF (renderPass env dt l s).state := by
  induction l generalizing s with
  | nil => exact h
  | cons e rest ih => exact ih _ (foldl_applyCall_cacheWF env _ s h)

theorem update_cacheWF (env : Env) (s : MiddlewareManager) (dt : Nat) :
    cacheWF (update env s dt).state := by
  have h1 : cacheWF (updateOperateCache env s) := List.nodup_nil
  exact updatePass_cacheWF env dt _ _ h1

theorem reachable_wellFormed (s : MiddlewareManager) (h : Reachable s) :
    s.updateList.Nodup ∧ cacheWF s ∧ mbWF s := by
  induction h with
  | fresh => exact ⟨List.nodup_nil, List.nodup_nil, mbWF_fresh⟩
  | call env s c _ ih =>
    exact ⟨by rw [applyCall_updateList]; exact ih.1, applyCall_cacheWF env s c ih.2.1,
      applyCall_mbWF env s c ih.2.2⟩
  | update env s dt _ ih =>
    exact ⟨update_nodup env s dt ih.1, update_cacheWF env s dt, update_mbWF env s dt ih.2.2⟩
  | render env s s2 dt _ hret ih =>
    refine ⟨?_, ?_, render_mbWF env s s2 dt ih.2.2 hret⟩
    · rw [render_state_updateList env s s2 dt hret]; exact ih.1
    · rw [(render_state env s s2 dt hret).1]
      exact renderPass_cacheWF env dt _ s ih.2.1


/-! ## Requests issued during the update pass -/

theorem updatePass_state (env : Env) (dt : Nat) (l : List IMiddlewarePtr)
    (s : MiddlewareManager) :
    (updatePass env dt l s).state = (updatePassCalls env l s).foldl (applyCall env) s := by
  induction l generalizing s with
  | nil => rfl
  | cons e rest ih =>
    simp only [updatePass, updatePassCalls, List.foldl_append]
    exact ih _

theorem renderPass_state (env : Env) (dt : Nat) (l : List IMiddlewarePtr)
    (s : MiddlewareManager) :
    (renderPass env dt l s).state = (renderPassCalls env l s).foldl (applyCall env) s := by
  induction l generalizing s with
  | nil => rfl
  | cons e rest ih =>
    simp only [renderPass, renderPassCalls, List.foldl_append]
    exact ih _

theorem runTimerCalls_cache (s : MiddlewareManager) (calls : List TimerCall) :
    (runTimerCalls s calls).operateCacheMap = assignAll s.operateCacheMap calls := by
  induction calls generalizing s with
  | nil => rfl
  | cons c rest ih =>
    simp only [runTimerCalls, List.foldl_cons, assignAll] at ih ⊢
    rw [ih, TimerCall.run_eq]

theorem applyCall_cache (env : Env) (s : MiddlewareManager) (c : Call) :
    (applyCall env s c).operateCacheMap = assignAll s.operateCacheMap (timerCalls [c]) := by
  cases c with
  | addTimer e => rfl
  | removeTimer e => rfl
  | getMeshBuffer f => exact getMeshBuffer_cache s f
  | getVBTypedArray f i => simp only [applyCall, (read_accessor_state env s f i 0).1]; rfl
  | getIBTypedArray f i => simp only [applyCall, (read_accessor_state env s f i 0).2.1]; rfl
  | getVBTypedArrayLength f j =>
    simp only [applyCall, (read_accessor_state env s f 0 j).2.2.1]; rfl
  | getIBTypedArrayLength f j =>
    simp only [applyCall, (read_accessor_state env s f 0 j).2.2.2]; rfl
  | getBufferCount f =>
    simp only [applyCall, getBufferCount_state, getMeshBuffer_cache]; rfl

theorem assignAll_append (m : List (IMiddlewarePtr × Bool)) (xs ys : List TimerCall) :
    assignAll m (xs ++ ys) = assignAll (assignAll m xs) ys := by
  simp [assignAll, List.foldl_append]

theorem foldl_applyCall_cache (env : Env) (calls : List Call) (s : MiddlewareManager) :
    (calls.foldl (applyCall env) s).operateCacheMap =
      assignAll s.operateCacheMap (timerCalls calls) := by
  induction calls generalizing s with
  | nil => rfl
  | cons c rest ih =>
    rw [List.foldl_cons, ih, applyCall_cache]
    have : timerCalls (c :: rest) = timerCalls [c] ++ timerCalls rest := by
      simp only [timerCalls]
      rw [← List.filterMap_append]
      rfl
    rw [this, assignAll_append]

theorem mapFind_assignAll (m : List (IMiddlewarePtr × Bool)) (calls : List TimerCall)
    (p : IMiddlewarePtr) :
    mapFind (assignAll m calls) p =
      match lastCallFor p calls with
      | some c => some c.wantActive
      | none => mapFind m p := by
  have h := mapFind_runTimerCalls
    { updateList := [], operateCacheMap := m, mbMap := [], heap := [] } calls p
  rw [runTimerCalls_cache] at h
  exact h

theorem update_cache (env : Env) (s : MiddlewareManager) (dt : Nat) :
    (update env s dt).state.operateCacheMap = assignAll [] (updateRequests env s) := by
  have h : (update env s dt).state.operateCacheMap =
      (updatePass env dt (updateOperateCache env s).updateList
        (updateOperateCache env s)).state.operateCacheMap := rfl
  rw [h, updatePass_state, foldl_applyCall_cache]
  rfl

theorem update_updateList (env : Env) (s : MiddlewareManager) (dt : Nat) :
    (update env s dt).state.updateList =
      (env.iterCache (update env s dt).state.operateCacheMap).foldl postEntry
        (updateOperateCache env s).updateList := by
  have h : (update env s dt).state.updateList =
      (env.iterCache (updatePass env dt (updateOperateCache env s).updateList
        (updateOperateCache env s)).state.operateCacheMap).foldl postEntry
        (updatePass env dt (updateOperateCache env s).updateList
          (updateOperateCache env s)).state.updateList := rfl
  rw [h, updatePass_updateList]
  rfl

theorem postEntry_nodup (l : List IMiddlewarePtr) (e : IMiddlewarePtr × Bool) (h : l.Nodup) :
    (postEntry l e).Nodup :=
  h.sublist (postEntry_sublist l e)

theorem not_mem_foldl_postEntry (es : List (IMiddlewarePtr × Bool)) (l : List IMiddlewarePtr)
    (p : IMiddlewarePtr) (hl : l.Nodup) (h : (p, false) ∈ es) :
    p ∉ es.foldl postEntry l := by
  induction es generalizing l with
  | nil => simp at h
  | cons e rest ih =>
    rw [List.foldl_cons]
    rcases List.mem_cons.mp h with h1 | h1
    · apply not_mem_of_sublist_of_not_mem (foldl_postEntry_sublist rest _)
      rw [← h1]
      unfold postEntry
      by_cases hm : p ∈ l
      · simp [hm, hl.mem_erase_iff]
      · simp [hm]
    · exact ih _ (postEntry_nodup l e hl) h1

theorem chattyEnv_iterCache (m : List (IMiddlewarePtr × Bool)) :
    (chattyEnv.iterCache m).Perm m :=
  List.perm_insertionSort _ m

/-! ## The flush in closed form -/

theorem mem_newcomers (es : List (IMiddlewarePtr × Bool)) (l : List IMiddlewarePtr)
    (p : IMiddlewarePtr) :
    p ∈ (es.filter (fun e => e.2 && decide (e.1 ∉ l))).map Prod.fst ↔ (p, true) ∈ es ∧ p ∉ l := by
  simp only [List.mem_map, List.mem_filter, Bool.and_eq_true, decide_eq_true_eq]
  constructor
  · rintro ⟨⟨k, b⟩, ⟨hin, hb, hl⟩, hk⟩
    simp only at hb hl hk
    subst hk
    subst hb
    exact ⟨hin, hl⟩
  · rintro ⟨hin, hl⟩
    exact ⟨(p, true), ⟨hin, rfl, hl⟩, rfl⟩

theorem foldl_flushEntry_eq (es : List (IMiddlewarePtr × Bool)) (l : List IMiddlewarePtr)
    (hk : (mapKeys es).Nodup) (hl : l.Nodup) :
    es.foldl flushEntry l =
      l.filter (fun p => decide ((p, false) ∉ es)) ++
        (es.filter (fun e => e.2 && decide (e.1 ∉ l))).map Prod.fst := by
  induction es using List.reverseRecOn with
  | nil => simp
  | append_singleton init e ih =>
    obtain ⟨k, b⟩ := e
    have hk2 : (mapKeys init).Nodup ∧ k ∉ mapKeys init := by
      simp only [mapKeys, List.map_append, List.map_cons, List.map_nil] at hk
      have := List.nodup_append.mp hk
      refine ⟨this.1, fun hin => ?_⟩
      exact this.2.2 hin (List.mem_singleton_self k)
    have hkey : ∀ v, (k, v) ∉ init := fun v hin =>
      hk2.2 (List.mem_map_of_mem Prod.fst hin)
    rw [List.foldl_append, ih hk2.1]
    simp only [List.foldl_cons, List.foldl_nil]
    have hF : k ∈ l.filter (fun p => decide ((p, false) ∉ init)) ↔ k ∈ l := by
      simp [List.mem_filter, hkey false]
    have hN : k ∉ (init.filter (fun e => e.2 && decide (e.1 ∉ l))).map Prod.fst := by
      rw [mem_newcomers]
      exact fun h => hkey true h.1
    have hmem : k ∈ l.filter (fun p => decide ((p, false) ∉ init)) ++
        (init.filter (fun e => e.2 && decide (e.1 ∉ l))).map Prod.fst ↔ k ∈ l := by
      rw [List.mem_append, hF]
      exact ⟨fun h => h.elim id (fun h2 => absurd h2 hN), Or.inl⟩
    cases b with
    | true =>
      have hfilt : l.filter (fun p => decide ((p, false) ∉ init ++ [(k, true)])) =
          l.filter (fun p => decide ((p, false) ∉ init)) := by
        apply List.filter_congr
        intro x _
        simp
      have hsingle : ([(k, true)] : List (IMiddlewarePtr × Bool)).filter
          (fun e => e.2 && decide (e.1 ∉ l)) = if k ∈ l then [] else [(k, true)] := by
        by_cases hkl : k ∈ l <;> simp [hkl]
      have hfe : ∀ x : List IMiddlewarePtr, flushEntry x (k, true) =
          if k ∈ x then x else x ++ [k] := fun x => rfl
      rw [hfilt, List.filter_append, List.map_append, hsingle, hfe]
      by_cases hkl : k ∈ l
      · rw [if_pos (hmem.mpr hkl), if_pos hkl, List.map_nil, List.append_nil]
      · rw [if_neg (fun h => hkl (hmem.mp h)), if_neg hkl, List.map_cons, List.map_nil,
          List.append_assoc]
    | false =>
      have hfilt : l.filter (fun p => decide ((p, false) ∉ init ++ [(k, false)])) =
          (l.filter (fun p => decide ((p, false) ∉ init))).filter (fun p => p != k) := by
        rw [List.filter_filter]
        apply List.filter_congr
        intro x _
        by_cases hx : x = k
        · simp [hx]
        · simp [hx]
      have hnew : (init ++ [(k, false)]).filter (fun e => e.2 && decide (e.1 ∉ l)) =
          init.filter (fun e => e.2 && decide (e.1 ∉ l)) := by
        simp [List.filter_append]
      have hfe : ∀ x : List IMiddlewarePtr, flushEntry x (k, false) =
          if k ∈ x then x.erase k else x := fun x => rfl
      rw [hfilt, hnew, hfe]
      by_cases hkl : k ∈ l
      · rw [if_pos (hmem.mpr hkl), List.erase_append_left _ (hF.mpr hkl),
          List.Nodup.erase_eq_filter (hl.filter _) k]
      · rw [if_neg (fun h => hkl (hmem.mp h))]
        congr 1
        symm
        rw [List.filter_eq_self]
        intro a ha
        have hal : a ∈ l := (List.mem_filter.mp ha).1
        simp only [bne_iff_ne, ne_eq]
        exact fun e => hkl (e ▸ hal)


theorem mem_iter_iff (env : Env) (hiter : ∀ m, (env.iterCache m).Perm m)
    (s : MiddlewareManager) (hc : cacheWF s) (p : IMiddlewarePtr) (b : Bool) :
    (p, b) ∈ env.iterCache s.operateCacheMap ↔ mapFind s.operateCacheMap p = some b := by
  rw [(hiter _).mem_iff]
  exact ⟨mapFind_of_mem _ _ _ hc, mem_of_mapFind _ _ _⟩

theorem updateOperateCache_eq (env : Env) (hiter : ∀ m, (env.iterCache m).Perm m)
    (s : MiddlewareManager) (hl : s.updateList.Nodup) (hc : cacheWF s) :
    (updateOperateCache env s).updateList =
      s.updateList.filter (fun p => decide (mapFind s.operateCacheMap p ≠ some false)) ++
        ((env.iterCache s.operateCacheMap).filter
          (fun e => e.2 && decide (e.1 ∉ s.updateList))).map Prod.fst := by
  rw [updateOperateCache_updateList,
    foldl_flushEntry_eq _ _ (iter_keys_nodup env hiter _ hc) hl]
  congr 1
  apply List.filter_congr
  intro x _
  rw [decide_eq_decide, mem_iter_iff env hiter s hc]

theorem reachedManager_reachable : Reachable reachedManager :=
  Reachable.update chattyEnv _ 16
    (Reachable.call chattyEnv _ (Call.addTimer 2)
      (Reachable.call chattyEnv _ (Call.addTimer 1) Reachable.fresh))

/-! ## What the traces hold, and additions requested during the update pass -/

theorem mem_update_trace (env : Env) (s : MiddlewareManager) (dt : Nat) (e : Event)
    (h : e ∈ (update env s dt).trace) :
    e = Event.attachInfoReset ∨ (env.attachBuffer = true ∧ e = Event.attachWriteUint32 0) ∨
      ∃ p, p ∈ (updateOperateCache env s).updateList ∧ e = Event.editorUpdate p dt := by
  rw [update_trace, List.cons_append, List.mem_cons, List.mem_append] at h
  rcases h with h | h | h
  · exact Or.inl h
  · right; left
    cases hb : env.attachBuffer
    · rw [hb] at h; simp at h
    · rw [hb] at h
      exact ⟨rfl, by simpa using h⟩
  · obtain ⟨p, hp, he⟩ := List.mem_map.mp h
    exact Or.inr (Or.inr ⟨p, hp, he.symm⟩)

theorem mem_render_trace (env : Env) (s : MiddlewareManager) (dt : Nat) (e : Event)
    (h : e ∈ (render env s dt).trace) :
    (∃ mb, e = Event.mbReset mb) ∨ (∃ p, p ∈ s.updateList ∧ e = Event.editorRender p dt) ∨
      (∃ mb, e = Event.uploadIB mb) ∨ (∃ mb, e = Event.uploadVB mb) ∨
      ∃ f acc mb, e = Event.syncMeshBuffersToNative f acc mb := by
  rw [render_trace, List.mem_append, List.mem_append] at h
  rcases h with (h | h) | h
  · exact Or.inl (mem_resetPass _ _ h)
  · obtain ⟨p, hp, he⟩ := List.mem_map.mp h
    exact Or.inr (Or.inl ⟨p, hp, he.symm⟩)
  · rcases mem_uploadPass _ _ _ h with h1 | h1 | ⟨it, _, h1⟩
    · exact Or.inr (Or.inr (Or.inl h1))
    · exact Or.inr (Or.inr (Or.inr (Or.inl h1)))
    · exact Or.inr (Or.inr (Or.inr (Or.inr ⟨_, _, _, h1⟩)))

theorem mem_foldl_flushEntry_of_add (es : List (IMiddlewarePtr × Bool))
    (l : List IMiddlewarePtr) (q : IMiddlewarePtr) (hk : (mapKeys es).Nodup)
    (h : (q, true) ∈ es) : q ∈ es.foldl flushEntry l := by
  induction es generalizing l with
  | nil => simp at h
  | cons e rest ih =>
    simp only [mapKeys, List.map_cons, List.nodup_cons] at hk
    rw [List.foldl_cons]
    rcases List.mem_cons.mp h with h1 | h1
    · subst h1
      rw [mem_foldl_flushEntry_of_not_key rest _ q hk.1]
      unfold flushEntry
      by_cases hm : q ∈ l <;> simp [hm]
    · exact ih _ hk.2 h1

theorem mapFind_assignAll_of_no_remove (m : List (IMiddlewarePtr × Bool))
    (calls : List TimerCall) (q : IMiddlewarePtr) (h : mapFind m q = some true)
    (hno : TimerCall.removeTimer q ∉ calls) : mapFind (assignAll m calls) q = some true := by
  rw [mapFind_assignAll]
  cases hl : lastCallFor q calls with
  | none => exact h
  | some c =>
    have hed := lastCallFor_editor q calls c hl
    have hin : c ∈ calls := by
      unfold lastCallFor at hl
      exact (List.mem_filter.mp (List.mem_of_getLast?_eq_some hl)).1
    cases c with
    | addTimer e => rfl
    | removeTimer e =>
      simp only [TimerCall.editor] at hed
      subst hed
      exact absurd hin hno

theorem not_mem_timerCalls (calls : List Call) (q : IMiddlewarePtr)
    (h : Call.removeTimer q ∉ calls) : TimerCall.removeTimer q ∉ timerCalls calls := by
  intro hin
  obtain ⟨c, hc, he⟩ := List.mem_filterMap.mp hin
  cases c <;> simp [Call.timer] at he
  subst he
  exact h hc

theorem mem_flush_after_calls (env env2 : Env) (hiter2 : ∀ m, (env2.iterCache m).Perm m)
    (s : MiddlewareManager) (hc : cacheWF s) (q : IMiddlewarePtr)
    (h : mapFind s.operateCacheMap q = some true) (calls : List Call)
    (hno : Call.removeTimer q ∉ calls) :
    q ∈ (updateOperateCache env2 (calls.foldl (applyCall env) s)).updateList := by
  have hc2 := foldl_applyCall_cacheWF env calls s hc
  have hfind : mapFind (calls.foldl (applyCall env) s).operateCacheMap q = some true := by
    rw [foldl_applyCall_cache]
    exact mapFind_assignAll_of_no_remove _ _ q h (not_mem_timerCalls calls q hno)
  rw [updateOperateCache_updateList]
  exact mem_foldl_flushEntry_of_add _ _ q (iter_keys_nodup env2 hiter2 _ hc2)
    ((mem_iter_iff env2 hiter2 _ hc2 q true).mpr hfind)
/-! ## The claims -/

/-- C1 (coalescing).  Requests `calls` (any participants, any interleaving) are issued on
a manager whose pending map is empty and whose active list has no duplicates, and the
pending map is then flushed.  If the last request about `p` is `c`, then either `c` is
`addTimer(p)` and `p` is in the active list after the flush, or `c` is `removeTimer(p)`
and `p` is not: earlier requests and the membership of `p` before the burst play no
part.  The iteration order of the pending map is any rearrangement of its entries. -/
theorem coalescing_last_call_wins (env : Env) (hiter : ∀ m, (env.iterCache m).Perm m)
    (s : MiddlewareManager) (hempty : s.operateCacheMap = []) (hnd : s.updateList.Nodup)
    (calls : List TimerCall) (p : IMiddlewarePtr) (c : TimerCall)
    (hlast : lastCallFor p calls = some c) :
    (c = TimerCall.addTimer p ∧
        p ∈ (updateOperateCache env (runTimerCalls s calls)).updateList) ∨
      (c = TimerCall.removeTimer p ∧
        p ∉ (updateOperateCache env (runTimerCalls s calls)).updateList) := by
  have hed := lastCallFor_editor p calls c hlast
  have hkeys : (mapKeys (runTimerCalls s calls).operateCacheMap).Nodup :=
    runTimerCalls_keys_nodup s calls (by rw [hempty]; exact List.nodup_nil)
  have hfind := mapFind_runTimerCalls s calls p
  rw [hlast] at hfind
  have hmem : (p, c.wantActive) ∈ env.iterCache (runTimerCalls s calls).operateCacheMap :=
    (hiter _).mem_iff.mpr (mem_of_mapFind _ _ _ hfind)
  have hiff := mem_foldl_flushEntry_of_entry _ (runTimerCalls s calls).updateList p c.wantActive
    (iter_keys_nodup env hiter _ hkeys) (by rw [(runTimerCalls_frame s calls).1]; exact hnd) hmem
  rw [updateOperateCache_updateList]
  cases c with
  | addTimer e =>
    left
    simp only [TimerCall.editor] at hed
    subst hed
    exact ⟨rfl, hiff.mpr rfl⟩
  | removeTimer e =>
    right
    simp only [TimerCall.editor] at hed
    subst hed
    refine ⟨rfl, fun hin => ?_⟩
    have := hiff.mp hin
    simp [TimerCall.wantActive] at this


/-- C1 at a concrete burst: after `sampleCalls` on `sampleManager` the last request for
participant 1 is a removal, and 1 is not active after the flush. -/
theorem coalescing_last_call_wins_witness :
    (TimerCall.removeTimer 1 = TimerCall.addTimer 1 ∧
        1 ∈ (updateOperateCache sampleEnv (runTimerCalls sampleManager sampleCalls)).updateList) ∨
      (TimerCall.removeTimer 1 = TimerCall.removeTimer 1 ∧
        1 ∉ (updateOperateCache sampleEnv (runTimerCalls sampleManager sampleCalls)).updateList) :=
  coalescing_last_call_wins sampleEnv sampleEnv_iterCache sampleManager rfl (by decide)
    sampleCalls 1 (TimerCall.removeTimer 1) (by decide)

/-- C2 (added then removed before the flush).  Participant `p` is not in the active list;
`addTimer(p)` is called, later `removeTimer(p)`, and no `addTimer(p)` after that (other
requests may come anywhere in between).  Then `p` is not in the active list before the
flush, after any number of rounds of the flush loop, after the flush, when `update(dt)`
returns, or when the following `render(dt)` returns; and `update(dt)` never calls
`p.update`, `render(dt)` never calls `p.render`.  The pending map is a well-formed map
(one entry per key) walked in any order. -/
theorem add_then_remove_never_active (env : Env) (hiter : ∀ m, (env.iterCache m).Perm m)
    (s : MiddlewareManager) (hkeys : (mapKeys s.operateCacheMap).Nodup)
    (p : IMiddlewarePtr) (hp : p ∉ s.updateList)
    (between later : List TimerCall) (hlater : TimerCall.addTimer p ∉ later) (dt : Nat) :
    p ∉ (runTimerCalls s (addThenRemove p between later)).updateList ∧
    (∀ n, p ∉ ((env.iterCache (runTimerCalls s (addThenRemove p between later)).operateCacheMap).take
          n).foldl flushEntry s.updateList) ∧
    p ∉ (updateOperateCache env (runTimerCalls s (addThenRemove p between later))).updateList ∧
    p ∉ (update env (runTimerCalls s (addThenRemove p between later)) dt).state.updateList ∧
    (∀ s2, (render env (update env (runTimerCalls s (addThenRemove p between later)) dt).state dt).state
          = some s2 → p ∉ s2.updateList) ∧
    (∀ d, Event.editorUpdate p d ∉ (update env (runTimerCalls s (addThenRemove p between later)) dt).trace) ∧
    (∀ d, Event.editorRender p d ∉ (render env (update env (runTimerCalls s (addThenRemove p between later)) dt).state dt).trace) := by
  generalize hs0 : runTimerCalls s (addThenRemove p between later) = s0
  have hlist : s0.updateList = s.updateList := by
    rw [← hs0]; exact (runTimerCalls_frame s _).1
  have hk0 : (mapKeys s0.operateCacheMap).Nodup := by
    rw [← hs0]; exact runTimerCalls_keys_nodup s _ hkeys
  have hfind : mapFind s0.operateCacheMap p = some false := by
    rw [← hs0, addThenRemove, runTimerCalls_append]
    simp only [runTimerCalls, List.foldl_cons]
    apply mapFind_runTimerCalls_of_no_add _ _ _ _ hlater
    rw [TimerCall.run_eq]
    simp [mapFind_mapAssign, TimerCall.editor, TimerCall.wantActive]
  have hnot : (p, true) ∉ env.iterCache s0.operateCacheMap := by
    intro hin
    have := mapFind_of_mem _ _ _ hk0 ((hiter _).mem_iff.mp hin)
    rw [hfind] at this
    simp at this
  have h0 : p ∉ s0.updateList := by rw [hlist]; exact hp
  have hflush : p ∉ (updateOperateCache env s0).updateList := by
    rw [updateOperateCache_updateList]
    exact not_mem_foldl_flushEntry _ _ p h0 hnot
  have hupd : p ∉ (update env s0 dt).state.updateList :=
    not_mem_of_sublist_of_not_mem (update_updateList_sublist env s0 dt) hflush
  refine ⟨h0, ?_, hflush, hupd, ?_, ?_, ?_⟩
  · intro n
    exact not_mem_foldl_flushEntry _ _ p hp (fun hin => hnot (List.mem_of_mem_take hin))
  · intro s2 h2
    rw [render_state_updateList env _ s2 dt h2]
    exact hupd
  · intro d hin
    exact hflush ((editorUpdate_mem_update_trace env s0 dt p d).mp hin).1
  · intro d hin
    exact hupd ((editorRender_mem_render_trace env _ dt p d).mp hin).1




/-- C2 at a concrete input: participant 3 is added and removed again on `sampleManager`
(other requests around), and is not active when `update` returns. -/
theorem add_then_remove_never_active_witness :
    3 ∉ (update sampleEnv (runTimerCalls sampleManager
      (addThenRemove 3 [TimerCall.addTimer 4] [TimerCall.removeTimer 3, TimerCall.addTimer 1]))
        16).state.updateList :=
  (add_then_remove_never_active sampleEnv sampleEnv_iterCache sampleManager (by decide) 3
    (by decide) [TimerCall.addTimer 4] [TimerCall.removeTimer 3, TimerCall.addTimer 1]
    (by decide) 16).2.2.2.1

/-- C3 fails as stated: with a pending map walked in ascending key order (a `std::map`
keyed by address), participant 2 registered first and participant 1 second, on a fresh
manager, `update` calls `update` on 1 before 2 and `render` does the same. -/
theorem registration_order_counterexample :
    (2 : IMiddlewarePtr) ≠ 1 ∧
    2 ∉ MiddlewareManager.fresh.updateList ∧ 1 ∉ MiddlewareManager.fresh.updateList ∧
    MiddlewareManager.fresh.operateCacheMap = [] ∧
    updateCalls (update sampleEnv (addTimer (addTimer MiddlewareManager.fresh 2) 1) 16).trace =
      [(1, 16), (2, 16)] ∧
    ¬ callsBefore (Event.editorUpdate 2 16) (Event.editorUpdate 1 16)
      (update sampleEnv (addTimer (addTimer MiddlewareManager.fresh 2) 1) 16).trace ∧
    ¬ callsBefore (Event.editorRender 2 16) (Event.editorRender 1 16)
      (render sampleEnv
        (update sampleEnv (addTimer (addTimer MiddlewareManager.fresh 2) 1) 16).state 16).trace := by
  decide

/-- C3 as amended.  `a` and `b` are distinct, neither is in the active list, the pending
map is empty; `addTimer(a)` then `addTimer(b)` are called.  The order in which
`update(dt)` calls the two is the order in which the pending map is walked, not the
order of the registrations: either the walk yields `a` first and `update` calls the
participants already active, then `a`, then `b`; or it yields `b` first and `update`
calls the participants already active, then `b`, then `a`.  `render(dt)` calls the
participants of the active list as `update` left it, which are those `update` called
(less the ones removed at its end) in the same order. -/
theorem registration_order (env : Env) (hiter : ∀ m, (env.iterCache m).Perm m)
    (s : MiddlewareManager) (hempty : s.operateCacheMap = [])
    (a b : IMiddlewarePtr) (hab : a ≠ b) (ha : a ∉ s.updateList) (hb : b ∉ s.updateList)
    (dt : Nat) :
    ((env.iterCache [(a, true), (b, true)] = [(a, true), (b, true)] ∧
        updateCalls (update env (addTimer (addTimer s a) b) dt).trace =
          (s.updateList ++ [a, b]).map (fun e => (e, dt))) ∨
      (env.iterCache [(a, true), (b, true)] = [(b, true), (a, true)] ∧
        updateCalls (update env (addTimer (addTimer s a) b) dt).trace =
          (s.updateList ++ [b, a]).map (fun e => (e, dt)))) ∧
    renderCalls (render env (update env (addTimer (addTimer s a) b) dt).state dt).trace =
      (update env (addTimer (addTimer s a) b) dt).state.updateList.map (fun e => (e, dt)) ∧
    ((update env (addTimer (addTimer s a) b) dt).state.updateList.map (fun e => (e, dt))).Sublist
      (updateCalls (update env (addTimer (addTimer s a) b) dt).trace) := by
  have hcache : (addTimer (addTimer s a) b).operateCacheMap = [(a, true), (b, true)] := by
    simp [addTimer, hempty, mapAssign, hab]
  have hlist : (addTimer (addTimer s a) b).updateList = s.updateList := rfl
  refine ⟨?_, renderCalls_render env _ dt, ?_⟩
  · rw [updateCalls_update, updateOperateCache_updateList, hcache, hlist]
    rcases perm_pair _ _ _ (hiter [(a, true), (b, true)]) with h | h
    · left
      rw [h, foldl_flushEntry_pair _ a b hab ha hb]
      exact ⟨rfl, rfl⟩
    · right
      rw [h, foldl_flushEntry_pair _ b a (fun e => hab e.symm) hb ha]
      exact ⟨rfl, rfl⟩
  · rw [updateCalls_update]
    exact (update_updateList_sublist env _ dt).map _



/-- C3 as amended, at the input of the counterexample. -/
theorem registration_order_witness :
    ((sampleEnv.iterCache [(2, true), (1, true)] = [(2, true), (1, true)] ∧
        updateCalls (update sampleEnv (addTimer (addTimer MiddlewareManager.fresh 2) 1) 16).trace =
          (MiddlewareManager.fresh.updateList ++ [2, 1]).map (fun e => (e, 16))) ∨
      (sampleEnv.iterCache [(2, true), (1, true)] = [(1, true), (2, true)] ∧
        updateCalls (update sampleEnv (addTimer (addTimer MiddlewareManager.fresh 2) 1) 16).trace =
          (MiddlewareManager.fresh.updateList ++ [1, 2]).map (fun e => (e, 16)))) ∧
    renderCalls (render sampleEnv
        (update sampleEnv (addTimer (addTimer MiddlewareManager.fresh 2) 1) 16).state 16).trace =
      (update sampleEnv (addTimer (addTimer MiddlewareManager.fresh 2) 1) 16).state.updateList.map
        (fun e => (e, 16)) ∧
    ((update sampleEnv (addTimer (addTimer MiddlewareManager.fresh 2) 1) 16).state.updateList.map
        (fun e => (e, 16))).Sublist
      (updateCalls (update sampleEnv (addTimer (addTimer MiddlewareManager.fresh 2) 1) 16).trace) :=
  registration_order sampleEnv sampleEnv_iterCache MiddlewareManager.fresh rfl 2 1 (by decide)
    (by decide) (by decide) 16

/-- C4 (`getMeshBuffer` is a stable, injective, lazily creating lookup).  In a well-formed
manager, for formats `f ≠ g`: `getMeshBuffer(f)` is not null; a second `getMeshBuffer(f)`
returns the same buffer and leaves the manager as the first call left it (nothing is
created); `getMeshBuffer(g)` returns a buffer different from that of `f`; and after it
`f` is still mapped to its buffer, which a further `getMeshBuffer(f)` returns. -/
theorem getMeshBuffer_stable_injective (s : MiddlewareManager) (hwf : mbWF s) (f g : Int)
    (hfg : f ≠ g) :
    (getMeshBuffer s f).1 ≠ 0 ∧
    getMeshBuffer (getMeshBuffer s f).2 f = ((getMeshBuffer s f).1, (getMeshBuffer s f).2) ∧
    (getMeshBuffer s f).1 ≠ (getMeshBuffer (getMeshBuffer s f).2 g).1 ∧
    meshBufferOf (getMeshBuffer (getMeshBuffer s f).2 g).2 f = (getMeshBuffer s f).1 ∧
    (getMeshBuffer (getMeshBuffer (getMeshBuffer s f).2 g).2 f).1 = (getMeshBuffer s f).1 := by
  have h4 : meshBufferOf (getMeshBuffer (getMeshBuffer s f).2 g).2 f = (getMeshBuffer s f).1 := by
    rw [meshBufferOf_getMeshBuffer_of_ne _ f g hfg, meshBufferOf_getMeshBuffer]
  refine ⟨getMeshBuffer_ne_null s f, getMeshBuffer_twice s f,
    getMeshBuffer_injective s f g hwf hfg, h4, ?_⟩
  have hne := getMeshBuffer_ne_null s f
  have hfind := mapFind_of_meshBufferOf (getMeshBuffer (getMeshBuffer s f).2 g).2 f
    (by rw [h4]; exact hne)
  rw [h4] at hfind
  rw [getMeshBuffer_of_live _ f _ hfind hne]


/-- C4 at formats 7 and 1 on `bufferedManager`. -/
theorem getMeshBuffer_stable_injective_witness :
    (getMeshBuffer bufferedManager 7).1 ≠ 0 ∧
    getMeshBuffer (getMeshBuffer bufferedManager 7).2 7 =
      ((getMeshBuffer bufferedManager 7).1, (getMeshBuffer bufferedManager 7).2) ∧
    (getMeshBuffer bufferedManager 7).1 ≠
      (getMeshBuffer (getMeshBuffer bufferedManager 7).2 1).1 ∧
    meshBufferOf (getMeshBuffer (getMeshBuffer bufferedManager 7).2 1).2 7 =
      (getMeshBuffer bufferedManager 7).1 ∧
    (getMeshBuffer (getMeshBuffer (getMeshBuffer bufferedManager 7).2 1).2 7).1 =
      (getMeshBuffer bufferedManager 7).1 :=
  getMeshBuffer_stable_injective bufferedManager (by decide) 7 1 (by decide)

/-- C5 (sentinel on an absent format).  When no `MeshBuffer` exists for `f`, the two
typed-array accessors return null and the two length accessors return zero, at every
buffer position. -/
theorem read_accessors_sentinel (env : Env) (s : MiddlewareManager) (f : Int)
    (h : meshBufferOf s f = 0) (i : Int) (j : Nat) :
    (getVBTypedArray env s f i).1 = 0 ∧ (getIBTypedArray env s f i).1 = 0 ∧
    (getVBTypedArrayLength env s f j).1 = 0 ∧ (getIBTypedArrayLength env s f j).1 = 0 := by
  simp [getVBTypedArray, getIBTypedArray, getVBTypedArrayLength, getIBTypedArrayLength,
    mapIndex_fst_mbMap, h]


/-- C5 at format 3 on `bufferedManager`, which holds a buffer for format 7 only. -/
theorem read_accessors_sentinel_witness :
    (getVBTypedArray sampleEnv bufferedManager 3 2).1 = 0 ∧
    (getIBTypedArray sampleEnv bufferedManager 3 2).1 = 0 ∧
    (getVBTypedArrayLength sampleEnv bufferedManager 3 2).1 = 0 ∧
    (getIBTypedArrayLength sampleEnv bufferedManager 3 2).1 = 0 :=
  read_accessors_sentinel sampleEnv bufferedManager 3 (by decide) 2 2

/-- C6 fails as stated: on a fresh manager each of the four read accessors, asked about
format 5, leaves the entry `5 ↦ null` in the format map, so the formats `render` walks
go from none to `[5]`. -/
theorem read_accessors_counterexample :
    meshBufferOf MiddlewareManager.fresh 5 = 0 ∧
    MiddlewareManager.fresh.mbMap = [] ∧
    (getVBTypedArray sampleEnv MiddlewareManager.fresh 5 0).2.mbMap = [(5, 0)] ∧
    (getIBTypedArray sampleEnv MiddlewareManager.fresh 5 0).2.mbMap = [(5, 0)] ∧
    (getVBTypedArrayLength sampleEnv MiddlewareManager.fresh 5 0).2.mbMap = [(5, 0)] ∧
    (getIBTypedArrayLength sampleEnv MiddlewareManager.fresh 5 0).2.mbMap = [(5, 0)] ∧
    mapKeys (sampleEnv.iterMb MiddlewareManager.fresh.mbMap) = [] ∧
    mapKeys (sampleEnv.iterMb (getVBTypedArray sampleEnv MiddlewareManager.fresh 5 0).2.mbMap) =
      [5] := by
  decide

/-- C6 as amended.  A read accessor creates no `MeshBuffer` and changes neither the active
list nor the pending map nor the entry of any other format; but when `f` has no entry
in the format map, the call adds one that holds null (the manager afterwards is the
manager before with `f ↦ null` added to the map), so `f` joins the formats `render`
walks.  When `f` has an entry already, null or not, the manager is unchanged. -/
theorem read_accessors_add_null_entry (env : Env) (s : MiddlewareManager) (f : Int) (i : Int)
    (j : Nat) :
    (getVBTypedArray env s f i).2 =
      { s with mbMap := if mapFind s.mbMap f = none then s.mbMap ++ [(f, 0)] else s.mbMap } ∧
    (getIBTypedArray env s f i).2 =
      { s with mbMap := if mapFind s.mbMap f = none then s.mbMap ++ [(f, 0)] else s.mbMap } ∧
    (getVBTypedArrayLength env s f j).2 =
      { s with mbMap := if mapFind s.mbMap f = none then s.mbMap ++ [(f, 0)] else s.mbMap } ∧
    (getIBTypedArrayLength env s f j).2 =
      { s with mbMap := if mapFind s.mbMap f = none then s.mbMap ++ [(f, 0)] else s.mbMap } ∧
    ∀ g, meshBufferOf
      { s with mbMap := if mapFind s.mbMap f = none then s.mbMap ++ [(f, 0)] else s.mbMap } g =
        meshBufferOf s g := by
  cases hf : mapFind s.mbMap f with
  | none =>
    refine ⟨?_, ?_, ?_, ?_, ?_⟩
    · simp [getVBTypedArray, mapIndex_of_none _ _ _ hf]
    · simp [getIBTypedArray, mapIndex_of_none _ _ _ hf]
    · simp [getVBTypedArrayLength, mapIndex_of_none _ _ _ hf]
    · simp [getIBTypedArrayLength, mapIndex_of_none _ _ _ hf]
    · intro g
      simp only [if_true, meshBufferOf]
      rw [← mapAssign_of_not_mem _ _ _ ((mapFind_eq_none _ _).mp hf), mapFind_mapAssign]
      split
      · rename_i h
        rw [← h, hf]
        rfl
      · rfl
  | some v =>
    refine ⟨?_, ?_, ?_, ?_, ?_⟩
    · by_cases hv : v = 0 <;> simp [getVBTypedArray, mapIndex_of_some _ _ _ _ hf, hv]
    · by_cases hv : v = 0 <;> simp [getIBTypedArray, mapIndex_of_some _ _ _ _ hf, hv]
    · by_cases hv : v = 0 <;> simp [getVBTypedArrayLength, mapIndex_of_some _ _ _ _ hf, hv]
    · by_cases hv : v = 0 <;> simp [getIBTypedArrayLength, mapIndex_of_some _ _ _ _ hf, hv]
    · intro g
      simp

/-- C7 fails as stated: on a fresh manager `getBufferCount(5)` constructs a `MeshBuffer`
and maps format 5 to it. -/
theorem getBufferCount_counterexample :
    meshBufferOf MiddlewareManager.fresh 5 = 0 ∧
    meshBufferOf (getBufferCount sampleEnv MiddlewareManager.fresh 5).2 5 = 1 ∧
    (getBufferCount sampleEnv MiddlewareManager.fresh 5).2.heap = [5] ∧
    ¬ ((getBufferCount sampleEnv MiddlewareManager.fresh 5).1 = 0 ∧
        meshBufferOf (getBufferCount sampleEnv MiddlewareManager.fresh 5).2 5 = 0) := by
  decide

/-- C7 as amended.  `getBufferCount` creates lazily, as `getMeshBuffer` does: when no
`MeshBuffer` exists for `f` before the call, the call constructs one (the heap grows by
one object, of format `f`), maps `f` to it, leaves the manager as `getMeshBuffer(f)`
would, and returns what `MeshBuffer::getBufferCount` gives for the new buffer. -/
theorem getBufferCount_creates (env : Env) (s : MiddlewareManager) (f : Int)
    (h : meshBufferOf s f = 0) :
    (getBufferCount env s f).1 = env.mbGetBufferCount (s.heap.length + 1) ∧
    (getBufferCount env s f).2 = (getMeshBuffer s f).2 ∧
    (getBufferCount env s f).2.heap = s.heap ++ [f] ∧
    meshBufferOf (getBufferCount env s f).2 f = s.heap.length + 1 := by
  have hg := getMeshBuffer_of_none s f h
  simp [getBufferCount, hg, meshBufferOf, mapFind_mapAssign]


/-- C7 as amended, at format 5 on a fresh manager. -/
theorem getBufferCount_creates_witness :
    (getBufferCount sampleEnv MiddlewareManager.fresh 5).1 =
      sampleEnv.mbGetBufferCount (MiddlewareManager.fresh.heap.length + 1) ∧
    (getBufferCount sampleEnv MiddlewareManager.fresh 5).2 =
      (getMeshBuffer MiddlewareManager.fresh 5).2 ∧
    (getBufferCount sampleEnv MiddlewareManager.fresh 5).2.heap =
      MiddlewareManager.fresh.heap ++ [5] ∧
    meshBufferOf (getBufferCount sampleEnv MiddlewareManager.fresh 5).2 5 =
      MiddlewareManager.fresh.heap.length + 1 :=
  getBufferCount_creates sampleEnv MiddlewareManager.fresh 5 (by decide)

/-- C8 (accessory ID).  Every `syncMeshBuffersToNative` call that `render(dt)` makes
carries accessory ID 65535 exactly when the format it is made for is `VF_XYZUVCC`, and
65534 for every other format; no other ID is passed.  And when `render` runs to its end,
such a call is made for every entry of the format map. -/
theorem accessory_id_selection (env : Env) (hiter : ∀ m, (env.iterMb m).Perm m)
    (s : MiddlewareManager) (dt : Nat) :
    (∀ f acc mb, Event.syncMeshBuffersToNative f acc mb ∈ (render env s dt).trace →
      (acc = 65535 ↔ f = env.VF_XYZUVCC) ∧ (f ≠ env.VF_XYZUVCC → acc = 65534) ∧
      (acc = 65535 ∨ acc = 65534)) ∧
    (∀ s2, (render env s dt).state = some s2 → ∀ it ∈ s2.mbMap,
      Event.syncMeshBuffersToNative it.1 (if it.1 = env.VF_XYZUVCC then 65535 else 65534) it.2 ∈
        (render env s dt).trace) := by
  constructor
  · intro f acc mb h
    have hacc := mem_render_trace_sync env s dt f acc mb h
    by_cases hf : f = env.VF_XYZUVCC
    · simp [hacc, hf]
    · simp [hacc, hf]
  · intro s2 h2 it hit
    obtain ⟨hs2, hflag⟩ := render_state env s s2 dt h2
    rw [hs2] at hit
    have := (uploadPass_complete env _ hflag it ((hiter _).mem_iff.mpr hit)).2
    rw [render_trace]
    exact List.mem_append_right _ this


/-- C8 at `twoBufferManager`: with `VF_XYZUVCC = 7`, the call for format 1 carries 65534. -/
theorem accessory_id_selection_witness :
    (65534 = 65535 ↔ (1 : Int) = sampleEnv.VF_XYZUVCC) ∧
    ((1 : Int) ≠ sampleEnv.VF_XYZUVCC → 65534 = 65534) ∧ (65534 = 65535 ∨ 65534 = 65534) :=
  (accessory_id_selection sampleEnv sampleEnv_iterMb twoBufferManager 16).1 1 65534 2
    (by decide)

/-- C9, the code at a failing input.  `nullEntryManager` holds buffer 1 for format 1 and,
left by the query `getVBTypedArray(0, 0)`, a null entry for format 0.  With the format
map walked in ascending key order, `render` resets buffer 1 and then stops in the last
loop at the entry of format 0, where `buffer->uiMeshBuffers()` is called on the null
buffer: buffer 1 is never uploaded and no batcher call is made for format 1. -/
theorem render_faults_on_null_entry :
    meshBufferOf nullEntryManager 1 = 1 ∧
    nullEntryManager.mbMap = [(1, 1), (0, 0)] ∧
    (render sampleEnv nullEntryManager 16).trace = [Event.mbReset 1] ∧
    (render sampleEnv nullEntryManager 16).state = none := by
  decide

/-- C10 (once per frame).  Starting from an active list without duplicates, `update(dt)`
calls `p.update(d)` once when `p` is in the active list after the flush and `d` is `dt`,
and never otherwise; the following `render(dt)` calls `q.render(d)` once when `q` is in the
active list as `update` left it and `d` is `dt`, and never otherwise. -/
theorem once_per_frame (env : Env) (s : MiddlewareManager) (hnd : s.updateList.Nodup)
    (dt : Nat) :
    (∀ p d, (update env s dt).trace.count (Event.editorUpdate p d) =
      if p ∈ (updateOperateCache env s).updateList ∧ d = dt then 1 else 0) ∧
    (∀ q d, (render env (update env s dt).state dt).trace.count (Event.editorRender q d) =
      if q ∈ (update env s dt).state.updateList ∧ d = dt then 1 else 0) := by
  constructor
  · intro p d
    rw [update_trace, List.cons_append, List.count_cons, List.count_append,
      count_editorUpdate_map _ (updateOperateCache_nodup env s hnd)]
    cases env.attachBuffer <;> simp
  · intro q d
    rw [render_trace, List.count_append, List.count_append,
      count_editorRender_map _ (update_nodup env s dt hnd)]
    have h1 : (resetPass (env.iterMb (update env s dt).state.mbMap)).count
        (Event.editorRender q d) = 0 := by
      apply List.count_eq_zero_of_not_mem
      intro hin
      obtain ⟨mb, hmb⟩ := mem_resetPass _ _ hin
      simp at hmb
    have h2 : (uploadPass env (env.iterMb (renderPass env dt (update env s dt).state.updateList
        (update env s dt).state).state.mbMap)).1.count (Event.editorRender q d) = 0 := by
      apply List.count_eq_zero_of_not_mem
      intro hin
      rcases mem_uploadPass _ _ _ hin with ⟨mb, h1⟩ | ⟨mb, h1⟩ | ⟨it, _, h1⟩ <;> simp at h1
    rw [h1, h2]
    simp



/-- C10 at `sampleManager` after `sampleCalls`: participant 2 is updated once, participant
1 (removed by the burst) not at all. -/
theorem once_per_frame_witness :
    (update sampleEnv (runTimerCalls sampleManager sampleCalls) 16).trace.count
        (Event.editorUpdate 2 16) =
      if 2 ∈ (updateOperateCache sampleEnv (runTimerCalls sampleManager sampleCalls)).updateList ∧
          16 = 16 then 1 else 0 :=
  (once_per_frame sampleEnv (runTimerCalls sampleManager sampleCalls) (by decide) 16).1 2 16

/-- C11 (removal during the update pass).  The active list has no duplicates, and the last
registration request about `p` that a participant issues from its `update(dt)` during
`update(dt)` is `removeTimer(p)`.  Then `p` is not in the active list when `update(dt)`
returns, the `render(dt)` of that frame never calls `p.render`, and `p` is still absent
when `render` returns. -/
theorem removal_during_update (env : Env) (hiter : ∀ m, (env.iterCache m).Perm m)
    (s : MiddlewareManager) (hnd : s.updateList.Nodup) (dt : Nat) (p : IMiddlewarePtr)
    (hlast : lastCallFor p (updateRequests env s) = some (TimerCall.removeTimer p)) :
    p ∉ (update env s dt).state.updateList ∧
    (∀ d, Event.editorRender p d ∉ (render env (update env s dt).state dt).trace) ∧
    (∀ s2, (render env (update env s dt).state dt).state = some s2 → p ∉ s2.updateList) := by
  have hfind : mapFind (update env s dt).state.operateCacheMap p = some false := by
    rw [update_cache, mapFind_assignAll, hlast]
    rfl
  have hmem : (p, false) ∈ env.iterCache (update env s dt).state.operateCacheMap :=
    (hiter _).mem_iff.mpr (mem_of_mapFind _ _ _ hfind)
  have hnot : p ∉ (update env s dt).state.updateList := by
    rw [update_updateList]
    exact not_mem_foldl_postEntry _ _ p (updateOperateCache_nodup env s hnd) hmem
  refine ⟨hnot, ?_, ?_⟩
  · intro d hin
    exact hnot ((editorRender_mem_render_trace env _ dt p d).mp hin).1
  · intro s2 h2
    rw [render_state_updateList env _ s2 dt h2]
    exact hnot

/-- C11 at `sampleManager` with `chattyEnv`: participant 1 asks for its own removal from
its `update` and is gone when `update` returns. -/
theorem removal_during_update_witness :
    1 ∉ (update chattyEnv sampleManager 16).state.updateList :=
  (removal_during_update chattyEnv chattyEnv_iterCache sampleManager (by decide) 16 1
    (by decide)).1

/-- C12 (deferred registration).  `addTimer(p)` and `removeTimer(p)` leave the active list,
the format map and the constructed buffers as they were; in the pending map the entry of
`p` becomes `true` (for `addTimer`) or `false` (for `removeTimer`) and the entry of every
other participant is what it was. -/
theorem timer_calls_deferred (s : MiddlewareManager) (p : IMiddlewarePtr) :
    ((addTimer s p).updateList = s.updateList ∧ (addTimer s p).mbMap = s.mbMap ∧
      (addTimer s p).heap = s.heap ∧
      mapFind (addTimer s p).operateCacheMap p = some true ∧
      ∀ q, q ≠ p → mapFind (addTimer s p).operateCacheMap q = mapFind s.operateCacheMap q) ∧
    ((removeTimer s p).updateList = s.updateList ∧ (removeTimer s p).mbMap = s.mbMap ∧
      (removeTimer s p).heap = s.heap ∧
      mapFind (removeTimer s p).operateCacheMap p = some false ∧
      ∀ q, q ≠ p → mapFind (removeTimer s p).operateCacheMap q = mapFind s.operateCacheMap q) := by
  refine ⟨⟨rfl, rfl, rfl, ?_, ?_⟩, ⟨rfl, rfl, rfl, ?_, ?_⟩⟩
  · simp [addTimer, mapFind_mapAssign]
  · intro q hq
    have : ¬ p = q := fun e => hq e.symm
    simp [addTimer, mapFind_mapAssign, this]
  · simp [removeTimer, mapFind_mapAssign]
  · intro q hq
    have : ¬ p = q := fun e => hq e.symm
    simp [removeTimer, mapFind_mapAssign, this]

/-- C13 (no duplicates).  In every state reachable from the freshly constructed manager
by public operations, participants calling back included, the active list holds each
participant at most once; and whatever registration requests follow (the same
participant added any number of times, say), the list is still free of duplicates after
the flush and when the next `update` returns. -/
theorem no_duplicates_invariant (s : MiddlewareManager) (h : Reachable s) :
    s.updateList.Nodup ∧
    (∀ (env : Env) (calls : List TimerCall),
      (updateOperateCache env (runTimerCalls s calls)).updateList.Nodup) ∧
    (∀ (env : Env) (calls : List TimerCall) (dt : Nat),
      (update env (runTimerCalls s calls) dt).state.updateList.Nodup) := by
  have hs := (reachable_wellFormed s h).1
  have hr : ∀ calls, (runTimerCalls s calls).updateList.Nodup := by
    intro calls
    rw [(runTimerCalls_frame s calls).1]
    exact hs
  exact ⟨hs, fun env calls => updateOperateCache_nodup env _ (hr calls),
    fun env calls dt => update_nodup env _ dt (hr calls)⟩

/-- C13 at `reachedManager`. -/
theorem no_duplicates_invariant_witness : reachedManager.updateList.Nodup :=
  (no_duplicates_invariant reachedManager reachedManager_reachable).1

/-- C14 (flush result).  For a duplicate-free active list `L` and a pending map `P` (one
entry per participant, walked in any order), `updateOperateCache` empties the pending
map and leaves the list `L'` with: (i) `p` is in `L'` iff `P(p)` is `true`, or `p` is in
`L` and `P(p)` is not `false`; (ii) `L'` is the participants of `L` whose pending entry
is not `false`, in the order they have in `L`, followed by the newly added participants
(pending `true`, not in `L`) in the order the pending map is walked; (iii) if every
pending add is of a participant already in `L` and every pending remove of one not in
`L`, then `L'` is `L`. -/
theorem flush_result (env : Env) (hiter : ∀ m, (env.iterCache m).Perm m)
    (s : MiddlewareManager) (hl : s.updateList.Nodup) (hc : cacheWF s) :
    (updateOperateCache env s).operateCacheMap = [] ∧
    (∀ p, p ∈ (updateOperateCache env s).updateList ↔
      mapFind s.operateCacheMap p = some true ∨
        (p ∈ s.updateList ∧ mapFind s.operateCacheMap p ≠ some false)) ∧
    (updateOperateCache env s).updateList =
      s.updateList.filter (fun p => decide (mapFind s.operateCacheMap p ≠ some false)) ++
        ((env.iterCache s.operateCacheMap).filter
          (fun e => e.2 && decide (e.1 ∉ s.updateList))).map Prod.fst ∧
    ((∀ e ∈ s.operateCacheMap,
        (e.2 = true → e.1 ∈ s.updateList) ∧ (e.2 = false → e.1 ∉ s.updateList)) →
      (updateOperateCache env s).updateList = s.updateList) := by
  have heq := updateOperateCache_eq env hiter s hl hc
  refine ⟨rfl, ?_, heq, ?_⟩
  · intro p
    rw [heq, List.mem_append, mem_newcomers, mem_iter_iff env hiter s hc, List.mem_filter,
      decide_eq_true_eq]
    constructor
    · rintro (h | h)
      · exact Or.inr h
      · exact Or.inl h.1
    · rintro (h | h)
      · by_cases hp : p ∈ s.updateList
        · exact Or.inl ⟨hp, by rw [h]; simp⟩
        · exact Or.inr ⟨h, hp⟩
      · exact Or.inl h
  · intro hall
    rw [heq]
    have h1 : s.updateList.filter
        (fun p => decide (mapFind s.operateCacheMap p ≠ some false)) = s.updateList := by
      rw [List.filter_eq_self]
      intro a ha
      rw [decide_eq_true_eq]
      intro hf
      exact (hall (a, false) (mem_of_mapFind _ _ _ hf)).2 rfl ha
    have h2 : (env.iterCache s.operateCacheMap).filter
        (fun e => e.2 && decide (e.1 ∉ s.updateList)) = [] := by
      rw [List.filter_eq_nil_iff]
      intro e he
      have hin := (hiter _).mem_iff.mp he
      intro hcond
      simp only [Bool.and_eq_true, decide_eq_true_eq] at hcond
      exact hcond.2 ((hall e hin).1 hcond.1)
    rw [h1, h2, List.map_nil, List.append_nil]

/-- C14 at `sampleManager` after `sampleCalls`: participant 1 is pending removal and
participant 3 pending addition. -/
theorem flush_result_witness :
    (updateOperateCache sampleEnv (runTimerCalls sampleManager sampleCalls)).updateList =
      (runTimerCalls sampleManager sampleCalls).updateList.filter
        (fun p => decide
          (mapFind (runTimerCalls sampleManager sampleCalls).operateCacheMap p ≠ some false)) ++
        ((sampleEnv.iterCache (runTimerCalls sampleManager sampleCalls).operateCacheMap).filter
          (fun e => e.2 && decide
            (e.1 ∉ (runTimerCalls sampleManager sampleCalls).updateList))).map Prod.fst :=
  (flush_result sampleEnv sampleEnv_iterCache (runTimerCalls sampleManager sampleCalls)
    (by decide) (by decide)).2.2.1

/-- C15 (attach-info header).  The calls `update(dt)` makes on its collaborators are, in
this order: the reset of the attach-info `SharedBufferManager`; when its buffer is
present, one `writeUint32(0)` on that buffer, directly after the reset; then the
participants' `update(dt)`, every one after the reset and the write.  `update` makes no
other call, and `render(dt)` makes only `MeshBuffer` resets, the participants'
`render(dt)`, `MeshBuffer` uploads and batcher calls: neither resets or writes the
render-info `SharedBufferManager`. -/
theorem attach_info_header (env : Env) (s : MiddlewareManager) (dt : Nat) :
    (update env s dt).trace =
      Event.attachInfoReset :: (if env.attachBuffer then [Event.attachWriteUint32 0] else []) ++
        (updateOperateCache env s).updateList.map (fun e => Event.editorUpdate e dt) ∧
    (∀ e ∈ (update env s dt).trace,
      e = Event.attachInfoReset ∨ (env.attachBuffer = true ∧ e = Event.attachWriteUint32 0) ∨
        ∃ p, p ∈ (updateOperateCache env s).updateList ∧ e = Event.editorUpdate p dt) ∧
    (∀ e ∈ (render env s dt).trace,
      (∃ mb, e = Event.mbReset mb) ∨ (∃ p, p ∈ s.updateList ∧ e = Event.editorRender p dt) ∨
        (∃ mb, e = Event.uploadIB mb) ∨ (∃ mb, e = Event.uploadVB mb) ∨
        ∃ f acc mb, e = Event.syncMeshBuffersToNative f acc mb) :=
  ⟨update_trace env s dt, mem_update_trace env s dt, mem_render_trace env s dt⟩

/-- C16, the code at a failing input.  `queriedManager` is reachable (one read accessor
called on a fresh manager) and its format map holds the key 3 mapped to null; `render`
on it makes no call at all and ends at `buffer->uiMeshBuffers()` on the null buffer. -/
theorem render_null_dereference_reachable :
    Reachable queriedManager ∧ queriedManager.mbMap = [(3, 0)] ∧
    (render sampleEnv queriedManager 16).trace = [] ∧
    (render sampleEnv queriedManager 16).state = none :=
  ⟨Reachable.call sampleEnv _ _ Reachable.fresh, by decide, by decide, by decide⟩

/-- C17 (additions requested during the update pass wait for the next frame).  `q` is not
in the active list after the flush that opens `update(dt)`, and the last registration
request about `q` that a participant issues from its `update(dt)` is `addTimer(q)`.
Then: the loop that closes `update` only removes (the list `update` leaves is a sublist
of the flushed one) and the pending map is left holding the requests of the pass; `q`
is not in the active list when `update` returns; neither `q.update` nor `q.render` is
called in that frame; the pending entry of `q` is still `true`; and after any calls
that hold no `removeTimer(q)` (those made by the participants during `render` of that
frame, say), `q` is in the active list after the flush of the next `update`, which calls
`q.update`. -/
theorem update_pass_adds_deferred (env : Env) (s : MiddlewareManager) (dt : Nat)
    (q : IMiddlewarePtr) (hq : q ∉ (updateOperateCache env s).updateList)
    (hlast : lastCallFor q (updateRequests env s) = some (TimerCall.addTimer q)) :
    (update env s dt).state.updateList.Sublist (updateOperateCache env s).updateList ∧
    (update env s dt).state.operateCacheMap = assignAll [] (updateRequests env s) ∧
    q ∉ (update env s dt).state.updateList ∧
    (∀ d, Event.editorUpdate q d ∉ (update env s dt).trace) ∧
    (∀ d, Event.editorRender q d ∉ (render env (update env s dt).state dt).trace) ∧
    mapFind (update env s dt).state.operateCacheMap q = some true ∧
    (∀ (env2 : Env), (∀ m, (env2.iterCache m).Perm m) →
      ∀ (calls : List Call), Call.removeTimer q ∉ calls → ∀ dt2,
        q ∈ (updateOperateCache env2
          (calls.foldl (applyCall env) (update env s dt).state)).updateList ∧
        Event.editorUpdate q dt2 ∈
          (update env2 (calls.foldl (applyCall env) (update env s dt).state) dt2).trace) ∧
    (∀ (env2 : Env), (∀ m, (env2.iterCache m).Perm m) →
      ∀ s2, (render env (update env s dt).state dt).state = some s2 →
        Call.removeTimer q ∉
          renderPassCalls env (update env s dt).state.updateList (update env s dt).state →
        ∀ dt2, q ∈ (updateOperateCache env2 s2).updateList ∧
          Event.editorUpdate q dt2 ∈ (update env2 s2 dt2).trace) := by
  have hsub := update_updateList_sublist env s dt
  have hnot : q ∉ (update env s dt).state.updateList := not_mem_of_sublist_of_not_mem hsub hq
  have hfind : mapFind (update env s dt).state.operateCacheMap q = some true := by
    rw [update_cache, mapFind_assignAll, hlast]
    rfl
  have hcw := update_cacheWF env s dt
  refine ⟨hsub, update_cache env s dt, hnot, ?_, ?_, hfind, ?_, ?_⟩
  · intro d hin
    exact hq ((editorUpdate_mem_update_trace env s dt q d).mp hin).1
  · intro d hin
    exact hnot ((editorRender_mem_render_trace env _ dt q d).mp hin).1
  · intro env2 hiter2 calls hno dt2
    have hm := mem_flush_after_calls env env2 hiter2 _ hcw q hfind calls hno
    exact ⟨hm, (editorUpdate_mem_update_trace env2 _ dt2 q dt2).mpr ⟨hm, rfl⟩⟩
  · intro env2 hiter2 s2 hret hno dt2
    have hs2 := (render_state env _ s2 dt hret).1
    rw [renderPass_state] at hs2
    have hm := mem_flush_after_calls env env2 hiter2 _ hcw q hfind _ hno
    rw [← hs2] at hm
    exact ⟨hm, (editorUpdate_mem_update_trace env2 _ dt2 q dt2).mpr ⟨hm, rfl⟩⟩

/-- C17 at `sampleManager` with `chattyEnv`: participant 3, registered by participant 1
from its `update`, is still pending when `update` returns. -/
theorem update_pass_adds_deferred_witness :
    mapFind (update chattyEnv sampleManager 16).state.operateCacheMap 3 = some true :=
  (update_pass_adds_deferred chattyEnv sampleManager 16 3 (by decide) (by decide)).2.2.2.2.2.1

end Middleware
